import Mathlib

/-!
Verification of the `rust-nlp-tools` language-tag library.

The Rust sources are shallowly embedded as follows:

* Rust `&str` / `String` values are `Str := List Char` (the tags handled by
  the library are ASCII, and byte-level checks in the source coincide with
  the character-level checks used here on that range).
* Rust `u64` values are `Nat`, with `% 2^64` written explicitly at the one
  spot where a shift can overflow 64 bits.
* A Rust panic (integer underflow in debug builds, an out-of-range shift, an
  explicit `panic!`) is modelled as `Option.none`; fallible functions return
  `Except`.
* `str::to_lowercase`/`to_uppercase` are modelled on the ASCII range, which
  is the range accepted by `check_characters`.
-/

set_option maxRecDepth 4000

abbrev Str := List Char

/-- ASCII lowercasing of one character (model of Rust `to_lowercase`). -/
def asciiLower (c : Char) : Char :=
  if 65 ≤ c.toNat ∧ c.toNat ≤ 90 then Char.ofNat (c.toNat + 32) else c

/-- ASCII uppercasing of one character (model of Rust `to_uppercase`). -/
def asciiUpper (c : Char) : Char :=
  if 97 ≤ c.toNat ∧ c.toNat ≤ 122 then Char.ofNat (c.toNat - 32) else c

/-- Model of Rust `char::is_digit(10)`. -/
def isDigitChar (c : Char) : Bool :=
  48 ≤ c.toNat && c.toNat ≤ 57

/-- Model of `tag.replace("_", "-").to_lowercase()` from `parse_tag`. -/
def normalize_tag (s : Str) : Str :=
  s.map (fun c => asciiLower (if c = '_' then '-' else c))

/-- Splitting on `'-'`, mirroring Rust `str::split("-")` (which always yields
at least one piece, and yields empty pieces between adjacent separators). -/
def splitHyphenAux : Str → Str → List Str
  | [], acc => [acc.reverse]
  | c :: rest, acc =>
    if c = '-' then acc.reverse :: splitHyphenAux rest []
    else splitHyphenAux rest (c :: acc)

def splitHyphen (s : Str) : List Str := splitHyphenAux s []

/-- Model of `Vec<String>::join("-")`. -/
def joinHyphen : List Str → Str
  | [] => []
  | [p] => p
  | p :: rest => p ++ '-' :: joinHyphen rest

/-! ## Constants from `language-tag-parser/src/lib.rs` -/

def LANGUAGE_MASK : Nat := 0x7fff000000000000
def PROTO_MASK : Nat := 0x0000800000000000
def EXTLANG_MASK : Nat := 0x00007fff00000000
def LANGUAGE_EXT_MASK : Nat := 0x7fffffff00000000
def SCRIPT_MASK : Nat := 0x000000007ffff800
def REGION_MASK : Nat := 0x00000000000007ff
def SCRIPT_SHIFT : Nat := 11
def EXTLANG_SHIFT : Nat := 32
def LANGUAGE_SHIFT : Nat := 48
def EMPTY_CODE : Nat := 0
def MISSING_CODE : Nat := 1916703853911212032

/-! ## Subtag codec -/

/-- Model of `subtag.parse::<u64>()` restricted to the character set that can
reach it (`check_characters` is always applied first, so no `+` sign and no
non-ASCII characters occur): the parse succeeds iff the string is a nonempty
digit string whose value fits in a `u64`. -/
def parseU64 (s : Str) : Option Nat :=
  if s ≠ [] ∧ s.all isDigitChar then
    let v := s.foldl (fun a c => a * 10 + (c.toNat - 48)) 0
    if v < 2 ^ 64 then some v else none
  else none

/-- One step of the letter-packing loop in `encode_subtag`:
`val <<= 5; val += ((ch as u8) - 96) as u64` with `u64` wrap-around on the
shift.  The `u8` subtraction is modelled at the call site. -/
def encodeStep (v : Nat) (c : Char) : Nat :=
  (v * 32) % 2 ^ 64 + (c.toNat % 256 - 96)

/-- The `encode_subtag` function from the source.  `none` models the panics of the Rust
code: the `(ch as u8) - 96` underflow when a character below `'` + 1` reaches
the letters path, the `usize` underflow in `5 * (length - subtag.len())`,
and the final `+ 1000` overflow. -/
def encode_subtag (subtag : Str) (length : Nat) : Option Nat :=
  match parseU64 subtag with
  | some val => some val
  | none =>
    if subtag.any (fun c => c.toNat % 256 < 96) then none
    else if length < subtag.length then none
    else
      let val := subtag.foldl encodeStep 0
      let val := (val <<< (5 * (length - subtag.length))) % 2 ^ 64
      if val + 1000 < 2 ^ 64 then some (val + 1000) else none

/-- Decimal digits of `n`, most significant first (`fuel ≥ 1` suffices for
`n < 10`, and in general `fuel ≥ n`). -/
def numToDigits : Nat → Nat → List Char
  | 0, _ => []
  | fuel + 1, n =>
    if n = 0 then [] else numToDigits fuel (n / 10) ++ [Char.ofNat (48 + n % 10)]

/-- Model of `format!("{number:>0width$}", number = val, width = 3)` for `val ≥ 1`. -/
def pad3 (val : Nat) : Str :=
  let ds := numToDigits val val
  List.replicate (3 - ds.length) '0' ++ ds

/-- The letter-unpacking loop of `decode_subtag`, producing characters in the
source's push order (least significant group first); `fuel ≥ remain`
suffices. -/
def decodeLettersAux : Nat → Nat → List Char
  | 0, _ => []
  | fuel + 1, remain =>
    if remain = 0 then []
    else
      (if remain % 32 > 0 then [Char.ofNat (96 + remain % 32)] else []) ++
        decodeLettersAux fuel (remain >>> 5)

/-- The `decode_subtag` function from the source. -/
def decode_subtag (val : Nat) : Option Str :=
  if val = 0 then none
  else if val < 1000 then some (pad3 val)
  else some (decodeLettersAux (val - 1000) (val - 1000)).reverse

/-! ## Errors, parser state, subtag shape tests -/

inductive LanguageCodeError where
  | InvalidCharacter : Str → LanguageCodeError
  | SubtagFormatError : Str → LanguageCodeError
  | ParseError : Str → LanguageCodeError
deriving DecidableEq, Repr

inductive ParserState where
  | afterLanguage : Int → ParserState
  | afterScript : ParserState
  | afterRegion : ParserState
  | afterVariant : ParserState
deriving DecidableEq, Repr

def check_characters (subtag : Str) : Bool :=
  subtag.all fun c => (0x30 ≤ c.toNat && c.toNat ≤ 0x39) || (0x61 ≤ c.toNat && c.toNat ≤ 0x7a)

def is_extension (subtag : Str) : Bool :=
  subtag = ['u'] || subtag = ['x']

def is_variant (subtag : Str) : Bool :=
  if subtag.length = 4 then
    match subtag with
    | c :: _ => isDigitChar c
    | [] => false
  else subtag.length ≥ 5

def is_region (subtag : Str) : Bool :=
  match subtag with
  | [] => false
  | c :: _ => (isDigitChar c && subtag.length = 3) || subtag.length = 2

def is_script (subtag : Str) : Bool :=
  subtag.length = 4

def is_extlang (subtag : Str) : Bool :=
  if subtag.length = 3 then
    match subtag with
    | c :: _ => !isDigitChar c
    | [] => false
  else false

/-! ## The parser -/

/-- The `for subtag_ref in parts` loop of `parse_lowercase_tag`.  `tag` is the
whole normalized tag (used in error payloads), `val` the accumulated code. -/
def parseLoop (tag : Str) : ParserState → Nat → List Str → Option (Except LanguageCodeError Nat)
  | _, val, [] => some (.ok val)
  | state, val, subtag :: rest =>
    let language_state : Int :=
      match state with
      | .afterLanguage num => num
      | _ => -1
    if ¬ check_characters subtag then some (.error (.InvalidCharacter tag))
    else if is_extension subtag then some (.ok val)
    else if state ≠ .afterVariant ∧ is_variant subtag then
      parseLoop tag .afterVariant val rest
    else if (language_state ≥ 0 ∨ state = .afterScript) ∧ is_region subtag then
      match encode_subtag subtag 2 with
      | none => none
      | some v => parseLoop tag .afterRegion (val ||| v) rest
    else if language_state ≥ 0 ∧ is_script subtag then
      match encode_subtag subtag 4 with
      | none => none
      | some v => parseLoop tag .afterScript (val ||| (v <<< SCRIPT_SHIFT)) rest
    else if language_state ≥ 0 ∧ language_state < 3 ∧ is_extlang subtag then
      if subtag = "pro".toList then
        parseLoop tag (.afterLanguage (language_state + 1)) (val ||| PROTO_MASK) rest
      else if val &&& EXTLANG_MASK = 0 then
        match encode_subtag subtag 3 with
        | none => none
        | some v =>
          parseLoop tag (.afterLanguage (language_state + 1)) (val ||| (v <<< EXTLANG_SHIFT)) rest
      else parseLoop tag (.afterLanguage (language_state + 1)) val rest
    else some (.error (.SubtagFormatError tag))

/-- The `match parts.nth(0)` dispatch of `parse_lowercase_tag` over the
split-off subtag list. -/
def parseParts (tag : Str) : List Str → Option (Except LanguageCodeError Nat)
  | [] => some (.error (.ParseError tag))
  | first :: rest =>
    if first = ['i'] ∨ first = ['x'] then some (.ok MISSING_CODE)
    else if first = "und".toList then parseLoop tag (.afterLanguage 0) 0 rest
    else if check_characters first then
      match encode_subtag first 3 with
      | none => none
      | some v => parseLoop tag (.afterLanguage 0) ((v <<< LANGUAGE_SHIFT) % 2 ^ 64) rest
    else some (.error (.InvalidCharacter tag))

def parse_lowercase_tag (tag : Str) : Option (Except LanguageCodeError Nat) :=
  parseParts tag (splitHyphen tag)

def parse_tag (tag : Str) : Option (Except LanguageCodeError Nat) :=
  parse_lowercase_tag (normalize_tag tag)

/-! ## Decoding -/

def decode_language (val : Nat) : Str :=
  match decode_subtag ((val &&& LANGUAGE_MASK) >>> LANGUAGE_SHIFT) with
  | some lang => lang
  | none => "und".toList

def decode_extlang (val : Nat) : Option Str :=
  let proto : Bool := val &&& PROTO_MASK ≠ 0
  match decode_subtag ((val &&& EXTLANG_MASK) >>> EXTLANG_SHIFT) with
  | some lang => if proto then some (lang ++ "-pro".toList) else some lang
  | none => if proto then some "pro".toList else none

/-- The `decode_script` function; the outer `Option` models the panic of `split_at(1)` on
an empty decoded script (reachable only for a raw script field equal to
exactly 1000). -/
def decode_script (val : Nat) : Option (Option Str) :=
  match decode_subtag ((val &&& SCRIPT_MASK) >>> SCRIPT_SHIFT) with
  | some script =>
    match script with
    | [] => none
    | c :: rest => some (some (asciiUpper c :: rest))
  | none => some none

def decode_region (val : Nat) : Option Str :=
  match decode_subtag (val &&& REGION_MASK) with
  | some region => some (region.map asciiUpper)
  | none => none

/-- The `unparse_tag` function; the outer `Option` propagates the `decode_script` panic. -/
def unparse_tag (val : Nat) : Option Str :=
  match decode_script val with
  | none => none
  | some scriptPart =>
    some (joinHyphen
      ([decode_language val] ++ (decode_extlang val).toList ++
        scriptPart.toList ++ (decode_region val).toList))

def update_tag (old_tag new_tag : Nat) : Nat :=
  let update_mask : Nat :=
    (if new_tag &&& LANGUAGE_EXT_MASK ≠ 0 then LANGUAGE_EXT_MASK else 0) |||
    (if new_tag &&& SCRIPT_MASK ≠ 0 then SCRIPT_MASK else 0) |||
    (if new_tag &&& REGION_MASK ≠ 0 then REGION_MASK else 0)
  (old_tag &&& ((2 ^ 64 - 1) ^^^ update_mask)) ||| (new_tag &&& update_mask)

def broader_tags (tag : Nat) : List Nat :=
  [tag &&& (LANGUAGE_MASK ||| SCRIPT_MASK ||| REGION_MASK),
   tag &&& (LANGUAGE_MASK ||| REGION_MASK),
   tag &&& (LANGUAGE_MASK ||| SCRIPT_MASK),
   tag &&& LANGUAGE_MASK,
   tag &&& REGION_MASK,
   tag &&& SCRIPT_MASK].filter (fun n => n ≠ tag)

/-! ## The `language-codes` crate

`LanguageCode` is a transparent wrapper around a `u64`; codes are modelled
directly as `Nat`.  The crate calls the parser's functions under the names
`encode_tag` / `decode_tag` / `update_code`; those are `parse_lowercase_tag`
(composed with normalization), `unparse_tag` and `update_tag` here. -/

/-- Modelled from the spec: `language_pair_bytes` (declared in the parser
crate's public interface but absent from the sources) concatenates the
big-endian bytes of two `u64` codes into a 16-byte `MATCH_DISTANCE` key; the
concatenation is injective, so the pair itself is a faithful model. -/
def language_pair_bytes (a b : Nat) : Nat × Nat := (a, b)

/-- Lookup in a generated `phf` map with `u64` keys. -/
def phfLookup (table : List (Nat × Nat)) (key : Nat) : Option Nat :=
  (table.find? (fun e => e.1 = key)).map (fun e => e.2)

/-- Parsing of a literal tag through the parser, as the build script does
with `encode_tag` when generating the named constants; used only on literals
that do parse (the default 0 is never reached). -/
def langCode (s : String) : Nat :=
  match parse_tag s.toList with
  | some (Except.ok v) => v
  | _ => 0

/-- Modelled from the spec: the named code constant for `und`, generated from
the missing `languages.txt` data file through the same parser. -/
def UNKNOWN : Nat := langCode "und"

/-- Modelled from the spec: the named constant for `en` (missing `languages.txt`). -/
def ENGLISH : Nat := langCode "en"

/-- Modelled from the spec: the named constant for `en-US` (missing `languages.txt`). -/
def AMERICAN_ENGLISH : Nat := langCode "en-US"

/-- Modelled from the spec: the named constant for `en-GB` (missing `languages.txt`). -/
def BRITISH_ENGLISH : Nat := langCode "en-GB"

/-- Modelled from the spec: the named constant for `en-001` (missing `languages.txt`). -/
def INTERNATIONAL_ENGLISH : Nat := langCode "en-001"

/-- Modelled from the spec: the named constant for `pt` (missing `languages.txt`). -/
def PORTUGUESE : Nat := langCode "pt"

/-- Modelled from the spec: the named constant for `pt-BR` (missing `languages.txt`). -/
def BRAZILIAN_PORTUGUESE : Nat := langCode "pt-BR"

/-- Modelled from the spec: the named constant for `pt-US` (missing `languages.txt`). -/
def AMERICAN_PORTUGUESE : Nat := langCode "pt-US"

/-- Modelled from the spec: the named constant for `es` (missing `languages.txt`). -/
def SPANISH : Nat := langCode "es"

/-- Modelled from the spec: the named constant for `es-ES` (missing `languages.txt`). -/
def EUROPEAN_SPANISH : Nat := langCode "es-ES"

/-- Modelled from the spec: the named constant for `es-419` (missing `languages.txt`). -/
def LATIN_AMERICAN_SPANISH : Nat := langCode "es-419"

/-- Modelled from the spec: the named constant for `zh-Hans` (missing `languages.txt`). -/
def SIMPLIFIED_CHINESE : Nat := langCode "zh-Hans"

/-- Modelled from the spec: the named constant for `zh-Hant` (missing `languages.txt`). -/
def TRADITIONAL_CHINESE : Nat := langCode "zh-Hant"

def SIMPLIFIED : Nat := SIMPLIFIED_CHINESE &&& SCRIPT_MASK
def TRADITIONAL : Nat := TRADITIONAL_CHINESE &&& SCRIPT_MASK

/-- Modelled from the spec: `LIKELY_SUBTAGS`, generated from the missing
`likelySubtags.json` data file.  The entries are the ones pinned by the
spec's examples (`en`→`en-Latn-US`, `pt`→`pt-Latn-BR`, `und`→`en-Latn-US`,
`und-014`→`sw-Latn-TZ`, `und-Vaii`→`vai-Vaii-LR`) together with the `no`,
`nb` and `zh` entries exercised by the repository's own tests. -/
def LIKELY_SUBTAGS : List (Nat × Nat) :=
  [(langCode "und", langCode "en-Latn-US"),
   (langCode "en", langCode "en-Latn-US"),
   (langCode "pt", langCode "pt-Latn-BR"),
   (langCode "und-014", langCode "sw-Latn-TZ"),
   (langCode "und-Vaii", langCode "vai-Vaii-LR"),
   (langCode "no", langCode "no-Latn-NO"),
   (langCode "nb", langCode "nb-Latn-NO"),
   (langCode "zh", langCode "zh-Hans-CN"),
   (langCode "zh-Hant", langCode "zh-Hant-TW")]

/-- Modelled from the spec: `MATCH_DISTANCE`, generated from the missing
`matching.txt` data file (`lang1,lang2,distance,sym|nonsym` lines).  The two
asymmetric Norwegian entries realize the distances pinned by the spec's seed
case `(nb,no)=1` and the repository's test `check_distance("no","nb",0)`. -/
def MATCH_DISTANCE : List ((Nat × Nat) × Int) :=
  [((langCode "no", langCode "nb"), 0),
   ((langCode "nb", langCode "no"), 1)]

def matchLookup (pair : Nat × Nat) : Option Int :=
  (MATCH_DISTANCE.find? (fun e => e.1 = pair)).map (fun e => e.2)

/-- The `LanguageCode::broaden` method. -/
def broaden (c : Nat) : List Nat :=
  [c &&& (LANGUAGE_MASK ||| SCRIPT_MASK ||| REGION_MASK),
   c &&& (LANGUAGE_MASK ||| REGION_MASK),
   c &&& (LANGUAGE_MASK ||| SCRIPT_MASK),
   c &&& LANGUAGE_MASK,
   c &&& REGION_MASK,
   c &&& SCRIPT_MASK,
   EMPTY_CODE].filter (fun n => n ≠ c)

/-- The `for broader_code in self.broaden()` search in `maximize`. -/
def maximizeLoop (c : Nat) : List Nat → Option Nat
  | [] => none
  | b :: rest =>
    match phfLookup LIKELY_SUBTAGS b with
    | some m => some (update_tag m c)
    | none => maximizeLoop c rest

/-- The `LanguageCode::maximize` method; `none` models the `panic!` on missing data. -/
def maximize (c : Nat) : Option Nat :=
  if c &&& LANGUAGE_MASK ≠ 0 ∧ c &&& SCRIPT_MASK ≠ 0 ∧ c &&& REGION_MASK ≠ 0 then
    some c
  else
    match phfLookup LIKELY_SUBTAGS c with
    | some m => some m
    | none => maximizeLoop c (broaden c)

def match_distance_language (a b : Nat) : Int :=
  let lang1 := a &&& LANGUAGE_EXT_MASK
  let lang2 := b &&& LANGUAGE_EXT_MASK
  if lang1 = lang2 then 0
  else
    match matchLookup (language_pair_bytes lang1 lang2) with
    | some dist => dist
    | none => 80

def match_distance_script (a b : Nat) : Int :=
  let lang1 := a &&& LANGUAGE_EXT_MASK
  let lang2 := b &&& LANGUAGE_EXT_MASK
  let script1 := a &&& SCRIPT_MASK
  let script2 := b &&& SCRIPT_MASK
  if (lang1 ||| script1) = (lang2 ||| script2) then 0
  else if script1 = script2 then match_distance_language a b
  else
    match matchLookup (language_pair_bytes (lang1 ||| script1) (lang2 ||| script2)) with
    | some dist => dist
    | none =>
      if script1 = SIMPLIFIED ∧ script2 = TRADITIONAL then
        15 + match_distance_language a b
      else if script1 = TRADITIONAL ∧ script2 = SIMPLIFIED then
        19 + match_distance_language a b
      else 40 + match_distance_language a b

def match_distance_region (a b : Nat) : Int :=
  if a = b then 0
  else
    match matchLookup (language_pair_bytes a b) with
    | some dist => dist
    | none =>
      let lang1 := a &&& LANGUAGE_EXT_MASK
      let lang2 := b &&& LANGUAGE_EXT_MASK
      let region1 := a &&& REGION_MASK
      let region2 := b &&& REGION_MASK
      if region1 = region2 then match_distance_script a b
      else
        let lang_region1 := lang1 ||| region1
        let lang_region2 := lang2 ||| region2
        if lang1 = PORTUGUESE ∧ lang2 = PORTUGUESE then
          if lang_region1 = BRAZILIAN_PORTUGUESE ∨ lang_region2 = BRAZILIAN_PORTUGUESE then
            8 + match_distance_script a b
          else if lang_region1 = AMERICAN_PORTUGUESE ∨ lang_region2 = AMERICAN_PORTUGUESE then
            8 + match_distance_script a b
          else 4 + match_distance_script a b
        else if lang1 = ENGLISH ∧ lang2 = ENGLISH then
          if lang_region1 = AMERICAN_ENGLISH ∨ lang_region2 = AMERICAN_ENGLISH then
            6 + match_distance_script a b
          else if lang_region1 = BRITISH_ENGLISH ∨ lang_region2 = BRITISH_ENGLISH then
            4 + match_distance_script a b
          else if lang_region1 = INTERNATIONAL_ENGLISH ∨ lang_region2 = INTERNATIONAL_ENGLISH then
            4 + match_distance_script a b
          else 5 + match_distance_script a b
        else if lang1 = SPANISH ∧ lang2 = SPANISH then
          if lang_region1 = EUROPEAN_SPANISH ∨ lang_region2 = EUROPEAN_SPANISH then
            8 + match_distance_script a b
          else if lang_region1 = LATIN_AMERICAN_SPANISH ∨ lang_region2 = LATIN_AMERICAN_SPANISH then
            4 + match_distance_script a b
          else 5 + match_distance_script a b
        else 4 + match_distance_script a b

/-- The `LanguageCode::match_distance` method; `none` propagates a `maximize` panic. -/
def match_distance (a b : Nat) : Option Int :=
  match maximize a, maximize b with
  | some ma, some mb => some (match_distance_region ma mb)
  | _, _ => none

/-- The loop of `LanguageCode::find_match`, carrying
`(rank_cost, best_match, best_distance, best_cost)`. -/
def find_match_loop (self : Nat) (rank_penalty cutoff : Int) :
    List Nat → Int → Nat → Int → Int → Option (Nat × Int)
  | [], _, best_match, best_distance, _ => some (best_match, best_distance)
  | other :: rest, rank_cost, best_match, best_distance, best_cost =>
    match match_distance self other with
    | none => none
    | some distance =>
      if distance = 0 then some (other, 0)
      else
        let cost := distance + rank_cost
        let upd := distance < cutoff ∧ cost < best_cost
        let best_match' := if upd then other else best_match
        let best_distance' := if upd then distance else best_distance
        let best_cost' := if upd then cost else best_cost
        let rank_cost' := rank_cost + rank_penalty
        if rank_cost' ≥ best_cost' then some (best_match', best_distance')
        else find_match_loop self rank_penalty cutoff rest rank_cost' best_match' best_distance' best_cost'

def find_match (self : Nat) (rank_penalty cutoff : Int) (possibilities : List Nat) :
    Option (Nat × Int) :=
  find_match_loop self rank_penalty cutoff possibilities 0 UNKNOWN 1000 1000

def match_supported_with_cutoff (self : Nat) (cutoff : Int) (supported : List Nat) :
    Option (Nat × Int) :=
  if supported.contains self then some (self, 0)
  else find_match self 0 cutoff supported

def match_supported (self : Nat) (supported : List Nat) : Option (Nat × Int) :=
  find_match self 0 25 supported

deriving instance DecidableEq for Except


def isLowerAlpha (c : Char) : Bool := 97 ≤ c.toNat && c.toNat ≤ 122

def allLower (s : Str) : Bool := s.all isLowerAlpha

def allDigit (s : Str) : Bool := s.all isDigitChar

/-- The letter-packing value of `encode_subtag` without wrap-around. -/
def letterVal (s : Str) : Nat := s.foldl (fun v c => v * 32 + (c.toNat - 96)) 0

/-- The numeric value of a digit string, as computed by `parse::<u64>`. -/
def digitVal (s : Str) : Nat := s.foldl (fun a c => a * 10 + (c.toNat - 48)) 0


/-- The canonical entry point of the letter-unpacking loop. -/
def decodeLetters (x : Nat) : Str := (decodeLettersAux x x).reverse


/-! ## Well-formed structured tags for the round-trip law -/

/-- A structured well-formed tag: a language subtag, at most one non-`pro`
extlang, an optional `pro` extlang, an optional script and an optional
region, rendered as `lang[-ext][-pro][-script][-region]`. -/
structure WfTag where
  lang : Str
  ext : Option Str
  pro : Bool
  script : Option Str
  region : Option Str

/-- Well-formedness: the language is `und` or 2–3 lowercase letters, the
extlang 3 lowercase letters other than `pro`, the script 4 lowercase
letters, and the region 2 lowercase letters or 3 digits other than `000`
(the amendment forced by the `und-000` counterexample). -/
def wfTag (T : WfTag) : Bool :=
  (T.lang == "und".toList ||
    (2 ≤ T.lang.length && T.lang.length ≤ 3 && allLower T.lang)) &&
  T.ext.all (fun e => e.length == 3 && allLower e && e != "pro".toList) &&
  T.script.all (fun sc => sc.length == 4 && allLower sc) &&
  T.region.all (fun r => (r.length == 2 && allLower r) ||
    (r.length == 3 && allDigit r && r != "000".toList))

def WfTag.tokens (T : WfTag) : List Str :=
  [T.lang] ++ T.ext.toList ++ (if T.pro then ["pro".toList] else []) ++
    T.script.toList ++ T.region.toList

def WfTag.render (T : WfTag) : Str := joinHyphen T.tokens

def titleCase : Str → Str
  | [] => []
  | c :: cs => asciiUpper c :: cs

/-- The canonical extlang part: the non-`pro` extlang with `-pro` appended
when the proto flag is present, exactly as `decode_extlang` prints it. -/
def WfTag.extCanon (T : WfTag) : Option Str :=
  match T.ext, T.pro with
  | none, false => none
  | none, true => some "pro".toList
  | some e, false => some e
  | some e, true => some (e ++ "-pro".toList)

/-- The canonical form of the tag: same subtags, language lowercase, script
title-case, region uppercase. -/
def WfTag.canonical (T : WfTag) : Str :=
  joinHyphen ([T.lang] ++ T.extCanon.toList ++ (T.script.map titleCase).toList ++
    (T.region.map (fun r => r.map asciiUpper)).toList)

def encVal (s : Str) (k : Nat) : Nat := (encode_subtag s k).getD 0

def WfTag.langVal (T : WfTag) : Nat :=
  if T.lang = "und".toList then 0 else encVal T.lang 3

def WfTag.extVal (T : WfTag) : Nat := (T.ext.map (fun e => encVal e 3)).getD 0

def WfTag.proVal (T : WfTag) : Nat := if T.pro then 1 else 0

def WfTag.scrVal (T : WfTag) : Nat := (T.script.map (fun sc => encVal sc 4)).getD 0

def WfTag.regVal (T : WfTag) : Nat := (T.region.map (fun r => encVal r 2)).getD 0

/-- The packed code of a well-formed structured tag, in the exact shape the
parser accumulates it. -/
def WfTag.code (T : WfTag) : Nat :=
  ((((T.langVal <<< 48) ||| (T.extVal <<< 32)) ||| (T.proVal <<< 47)) |||
    (T.scrVal <<< 11)) ||| T.regVal


/-! ## Bit-field toolkit -/


/-- The contiguous mask of `width` bits starting at bit `lo`. -/
def bitRange (lo width : Nat) : Nat := (2 ^ width - 1) <<< lo

theorem testBit_bitRange (lo w i : Nat) :
    (bitRange lo w).testBit i = (decide (lo ≤ i) && decide (i < lo + w)) := by
  unfold bitRange
  rw [Nat.testBit_shiftLeft, Nat.testBit_two_pow_sub_one]
  by_cases h : lo ≤ i
  · simp only [ge_iff_le, h, decide_True, Bool.true_and]
    exact decide_eq_decide.mpr (by omega)
  · simp [h]

theorem testBit_piece_false {y k : Nat} (s i : Nat) (hy : y < 2 ^ k)
    (h : i < s ∨ s + k ≤ i) : (y <<< s).testBit i = false := by
  rw [Nat.testBit_shiftLeft]
  rcases h with h | h
  · simp only [ge_iff_le, Bool.and_eq_false_imp, decide_eq_true_eq]
    intro hc; omega
  · by_cases hs : s ≤ i
    · have : y < 2 ^ (i - s) :=
        lt_of_lt_of_le hy (Nat.pow_le_pow_right (by norm_num) (by omega))
      simp [Nat.testBit_lt_two_pow this]
    · simp [hs]

theorem lor_and_distrib (a b m : Nat) : (a ||| b) &&& m = (a &&& m) ||| (b &&& m) := by
  apply Nat.eq_of_testBit_eq
  intro i
  rw [Nat.testBit_land, Nat.testBit_lor, Nat.testBit_lor, Nat.testBit_land, Nat.testBit_land]
  cases Nat.testBit a i <;> cases Nat.testBit b i <;> cases Nat.testBit m i <;> rfl

theorem and_bitRange_drop {y k : Nat} (s lo w : Nat) (hy : y < 2 ^ k)
    (h : s + k ≤ lo ∨ lo + w ≤ s) : (y <<< s) &&& bitRange lo w = 0 := by
  apply Nat.eq_of_testBit_eq
  intro i
  rw [Nat.testBit_land, testBit_bitRange, Nat.zero_testBit]
  by_cases h1 : lo ≤ i
  · by_cases h2 : i < lo + w
    · rw [testBit_piece_false s i hy (by omega)]
      rfl
    · simp [h2]
  · simp [h1]

theorem and_bitRange_keep {y k : Nat} (s lo w : Nat) (hy : y < 2 ^ k)
    (h1 : lo ≤ s) (h2 : s + k ≤ lo + w) : (y <<< s) &&& bitRange lo w = y <<< s := by
  apply Nat.eq_of_testBit_eq
  intro i
  rw [Nat.testBit_land, testBit_bitRange]
  by_cases hband : lo ≤ i ∧ i < lo + w
  · simp [hband.1, hband.2]
  · have : (y <<< s).testBit i = false := by
      apply testBit_piece_false s i hy
      omega
    simp only [this, Bool.false_and]

theorem shiftLeft_lt {y k s : Nat} (hy : y < 2 ^ k) : y <<< s < 2 ^ (k + s) := by
  rw [Nat.shiftLeft_eq, Nat.pow_add]
  exact Nat.mul_lt_mul_of_lt_of_le hy (le_refl _) (Nat.pos_pow_of_pos s (by norm_num))

/-! ## Claim C1 -/

/-- C1: the spec's field table (language bits 63–49, proto bit 48, extlang
bits 47–32 of width 16, script bits 31–11 of width 21, region bits 10–0 of
width 11) does not match the masks in the code: only the region row is
right. -/
theorem C1_spec_bit_table_refuted :
    ¬ (LANGUAGE_MASK = bitRange 49 15 ∧ PROTO_MASK = bitRange 48 1 ∧
       EXTLANG_MASK = bitRange 32 16 ∧ SCRIPT_MASK = bitRange 11 21 ∧
       REGION_MASK = bitRange 0 11) := by
  decide

/-- C1 (amended): the packed code lays its fields out one bit lower than the
spec's table says: language occupies bits 62–48 (width 15), the proto flag
bit 47, extlang bits 46–32 (width 15), script bits 30–11 (width 20), region
bits 10–0 (width 11); bits 63 and 31 are unused, and the shifts used by
encoding and decoding (48, 32, 11) select exactly these ranges. -/
theorem C1_field_layout :
    LANGUAGE_MASK = bitRange 48 15 ∧ PROTO_MASK = bitRange 47 1 ∧
    EXTLANG_MASK = bitRange 32 15 ∧ SCRIPT_MASK = bitRange 11 20 ∧
    REGION_MASK = bitRange 0 11 ∧
    LANGUAGE_EXT_MASK = LANGUAGE_MASK ||| PROTO_MASK ||| EXTLANG_MASK ∧
    LANGUAGE_SHIFT = 48 ∧ EXTLANG_SHIFT = 32 ∧ SCRIPT_SHIFT = 11 := by
  decide

/-! ## Claim C7 -/

/-- C7: the sentinel `MISSING_CODE` does **not** decode to `mis`.  It is the
letter-packing of `mis` *without* the `+1000` bias, shifted by 47 rather
than `LANGUAGE_SHIFT = 48` — a constant left over from an older layout — so
under the current layout its language field holds 6809 (`euq`), not
`encode_subtag("mis", 3) = 14619`, its proto bit is set, and it prints as
`euq-pro`. -/
theorem C7_missing_code_stale :
    MISSING_CODE = 13619 <<< 47 ∧
    encode_subtag "mis".toList 3 = some 14619 ∧
    (MISSING_CODE &&& LANGUAGE_MASK) >>> LANGUAGE_SHIFT = 6809 ∧
    decode_language MISSING_CODE = "euq".toList ∧
    decode_language MISSING_CODE ≠ "mis".toList ∧
    unparse_tag MISSING_CODE = some "euq-pro".toList := by
  decide

/-! ## Claim C8 -/

/-- C8: parsing the empty string does not fail with `ParseError`: Rust's
`"".split("-")` yields one empty piece, so the `None` arm that raises
`ParseError` is unreachable and the empty language subtag is encoded as
`1000`, giving `Ok(1000 << 48)` — a code that even unparses to the empty
string. -/
theorem C8_empty_string_parses_ok :
    parse_tag [] = some (Except.ok (1000 <<< 48)) ∧
    unparse_tag (1000 <<< 48) = some [] := by
  decide

/-! ## Claim C9 -/

/-- C9: `parse` is not total: the region-shaped subtag `a1` passes
`check_characters` and `is_region`, but `encode_subtag("a1", 2)` reaches the
letters path where `(b'1' as u8) - 96` underflows (a panic in debug builds),
so `parse("en-a1")` panics instead of returning a code or an error. -/
theorem C9_en_a1_underflow :
    check_characters "a1".toList = true ∧
    is_region "a1".toList = true ∧
    encode_subtag "a1".toList 2 = none ∧
    parse_tag "en-a1".toList = none := by
  decide

/-! ## Claim C6 -/

/-- C6: `broaden(c)` is exactly the list of the seven masked values
language∪script∪region, language∪region, language∪script, language, region,
script, empty — in this order — with any value equal to `c` itself dropped;
in particular the empty code is its last element whenever `c` is nonzero. -/
theorem C6_broaden_order (c : Nat) :
    broaden c =
      [c &&& (LANGUAGE_MASK ||| SCRIPT_MASK ||| REGION_MASK),
       c &&& (LANGUAGE_MASK ||| REGION_MASK),
       c &&& (LANGUAGE_MASK ||| SCRIPT_MASK),
       c &&& LANGUAGE_MASK,
       c &&& REGION_MASK,
       c &&& SCRIPT_MASK,
       EMPTY_CODE].filter (fun n => n ≠ c) ∧
    (c ≠ 0 → (broaden c).getLast? = some EMPTY_CODE) := by
  refine ⟨rfl, fun hc => ?_⟩
  show (([c &&& (LANGUAGE_MASK ||| SCRIPT_MASK ||| REGION_MASK),
       c &&& (LANGUAGE_MASK ||| REGION_MASK),
       c &&& (LANGUAGE_MASK ||| SCRIPT_MASK),
       c &&& LANGUAGE_MASK,
       c &&& REGION_MASK,
       c &&& SCRIPT_MASK] ++ [EMPTY_CODE]).filter (fun n => n ≠ c)).getLast? =
      some EMPTY_CODE
  rw [List.filter_append]
  have h0 : List.filter (fun n => n ≠ c) [EMPTY_CODE] = [EMPTY_CODE] := by
    simp [EMPTY_CODE, Ne.symm hc]
  rw [h0, List.getLast?_concat]

/-- Witness for C6 at the nonzero code for `en`. -/
theorem C6_broaden_order_witness :
    (broaden 1848727647035588608).getLast? = some EMPTY_CODE :=
  (C6_broaden_order 1848727647035588608).2 (by decide)

/-! ## Claim C10: lemmas -/

theorem normalize_tag_append (a b : Str) :
    normalize_tag (a ++ b) = normalize_tag a ++ normalize_tag b :=
  List.map_append _ a b

theorem splitHyphenAux_append (r : Str) :
    ∀ (s : Str) (acc : Str),
      splitHyphenAux (s ++ '-' :: r) acc = splitHyphenAux s acc ++ splitHyphen r := by
  intro s
  induction s with
  | nil =>
    intro acc
    simp [splitHyphenAux, splitHyphen]
  | cons c cs ih =>
    intro acc
    by_cases hc : c = '-'
    · simp [splitHyphenAux, hc, ih]
    · simp [splitHyphenAux, hc, ih]

theorem splitHyphen_append (s r : Str) :
    splitHyphen (s ++ '-' :: r) = splitHyphen s ++ splitHyphen r :=
  splitHyphenAux_append r s []

/-- Appending `-x-…` after the tokens of a successfully parsed tag leaves the
parse result unchanged: the loop either already stopped at an extension
token inside `toks`, or reaches the new `x` token and stops there. -/
theorem parseLoop_ok_extension (tag1 tag2 : Str) (v : Nat) (more : List Str) :
    ∀ (toks : List Str) (st : ParserState) (val : Nat),
      parseLoop tag1 st val toks = some (Except.ok v) →
      parseLoop tag2 st val (toks ++ "x".toList :: more) = some (Except.ok v) := by
  intro toks
  induction toks with
  | nil =>
    intro st val h
    simp only [parseLoop] at h
    injection h with h'
    injection h' with h''
    subst h''
    show parseLoop tag2 st val ("x".toList :: more) = some (Except.ok val)
    cases st <;> simp [parseLoop, check_characters, is_extension]
  | cons t ts ih =>
    intro st val h
    rw [List.cons_append]
    simp only [parseLoop] at h ⊢
    by_cases c1 : ¬ check_characters t
    · rw [if_pos c1] at h ⊢
      simp at h
    · rw [if_neg c1] at h ⊢
      by_cases c2 : is_extension t = true
      · rw [if_pos c2] at h ⊢
        exact h
      · rw [if_neg c2] at h ⊢
        by_cases c3 : st ≠ ParserState.afterVariant ∧ is_variant t
        · rw [if_pos c3] at h ⊢
          exact ih _ _ h
        · rw [if_neg c3] at h ⊢
          by_cases c4 : ((match st with
              | ParserState.afterLanguage num => num
              | _ => -1) ≥ 0 ∨ st = ParserState.afterScript) ∧ is_region t
          · rw [if_pos c4] at h ⊢
            cases henc : encode_subtag t 2 with
            | none => rw [henc] at h; simp at h
            | some w => rw [henc] at h; exact ih _ _ h
          · rw [if_neg c4] at h ⊢
            by_cases c5 : (match st with
                | ParserState.afterLanguage num => num
                | _ => -1) ≥ 0 ∧ is_script t
            · rw [if_pos c5] at h ⊢
              cases henc : encode_subtag t 4 with
              | none => rw [henc] at h; simp at h
              | some w => rw [henc] at h; exact ih _ _ h
            · rw [if_neg c5] at h ⊢
              by_cases c6 : (match st with
                  | ParserState.afterLanguage num => num
                  | _ => -1) ≥ 0 ∧ (match st with
                  | ParserState.afterLanguage num => num
                  | _ => -1) < 3 ∧ is_extlang t
              · rw [if_pos c6] at h ⊢
                by_cases c7 : t = "pro".toList
                · rw [if_pos c7] at h ⊢
                  exact ih _ _ h
                · rw [if_neg c7] at h ⊢
                  by_cases c8 : val &&& EXTLANG_MASK = 0
                  · rw [if_pos c8] at h ⊢
                    cases henc : encode_subtag t 3 with
                    | none => rw [henc] at h; simp at h
                    | some w => rw [henc] at h; exact ih _ _ h
                  · rw [if_neg c8] at h ⊢
                    exact ih _ _ h
              · rw [if_neg c6] at h ⊢
                simp at h

/-! ## Claim C10 -/

/-- C10: everything after a `u`/`x` extension token is discarded without any
validation: if a tag `t` parses to a code, then `t ++ "-x-" ++ p` parses to
the same code for **every** suffix `p`, including suffixes that contain
characters that would otherwise raise `InvalidCharacter`. -/
theorem C10_extension_suffix_ignored (t p : Str) (code : Nat)
    (h : parse_tag t = some (Except.ok code)) :
    parse_tag (t ++ "-x-".toList ++ p) = some (Except.ok code) := by
  unfold parse_tag parse_lowercase_tag at h ⊢
  have hx : normalize_tag "-x-".toList = '-' :: 'x' :: '-' :: [] := by rfl
  have hsplit : splitHyphen (normalize_tag (t ++ "-x-".toList ++ p))
      = splitHyphen (normalize_tag t) ++ ("x".toList :: splitHyphen (normalize_tag p)) := by
    rw [normalize_tag_append, normalize_tag_append, hx, List.append_assoc]
    show splitHyphen (normalize_tag t ++ '-' :: ('x' :: '-' :: normalize_tag p)) = _
    rw [splitHyphen_append]
    show _ ++ splitHyphen (['x'] ++ '-' :: normalize_tag p) = _
    rw [splitHyphen_append]
    rfl
  rw [hsplit]
  cases hs : splitHyphen (normalize_tag t) with
  | nil => rw [hs] at h; simp [parseParts] at h
  | cons first rest =>
    rw [hs] at h
    rw [List.cons_append]
    simp only [parseParts] at h ⊢
    by_cases hix : first = ['i'] ∨ first = ['x']
    · rw [if_pos hix] at h ⊢; exact h
    · rw [if_neg hix] at h ⊢
      by_cases hund : first = "und".toList
      · rw [if_pos hund] at h ⊢
        exact parseLoop_ok_extension _ _ _ _ _ _ _ h
      · rw [if_neg hund] at h ⊢
        by_cases hchk : check_characters first
        · rw [if_pos hchk] at h ⊢
          cases henc : encode_subtag first 3 with
          | none => rw [henc] at h; simp at h
          | some v =>
            rw [henc] at h
            exact parseLoop_ok_extension _ _ _ _ _ _ _ h
        · rw [if_neg hchk] at h ⊢; simp at h

/-- Witness for C10: `en-x-$!` (an otherwise-invalid private-use payload)
parses to the same code as `en`. -/
theorem C10_extension_suffix_ignored_witness :
    parse_tag ("en".toList ++ "-x-".toList ++ "$!".toList) =
      some (Except.ok 1848727647035588608) :=
  C10_extension_suffix_ignored "en".toList "$!".toList 1848727647035588608 (by decide)

/-! ## Distance engine lemmas -/

theorem phfLookup_zero : phfLookup LIKELY_SUBTAGS 0 = some (langCode "en-Latn-US") := by
  decide

theorem maximizeLoop_isSome {c : Nat} :
    ∀ l : List Nat, EMPTY_CODE ∈ l → (maximizeLoop c l).isSome := by
  intro l
  induction l with
  | nil => intro h; cases h
  | cons b rest ih =>
    intro h
    unfold maximizeLoop
    cases hb : phfLookup LIKELY_SUBTAGS b with
    | some m => simp
    | none =>
      have hbr : EMPTY_CODE ∈ rest := by
        rcases List.mem_cons.mp h with h0 | h0
        · exfalso
          rw [show b = 0 from h0.symm, phfLookup_zero] at hb
          exact Option.noConfusion hb
        · exact h0
      simpa using ih hbr

theorem maximize_isSome (c : Nat) : (maximize c).isSome := by
  unfold maximize
  by_cases hA : c &&& LANGUAGE_MASK ≠ 0 ∧ c &&& SCRIPT_MASK ≠ 0 ∧ c &&& REGION_MASK ≠ 0
  · simp [hA]
  · rw [if_neg hA]
    cases hc : phfLookup LIKELY_SUBTAGS c with
    | some m => simp
    | none =>
      apply maximizeLoop_isSome
      have hc0 : c ≠ 0 := by
        intro h0
        rw [h0, phfLookup_zero] at hc
        exact Option.noConfusion hc
      unfold broaden
      apply List.mem_filter.mpr
      refine ⟨by simp, ?_⟩
      simpa [EMPTY_CODE] using Ne.symm hc0

theorem match_distance_total (a b : Nat) : ∃ d, match_distance a b = some d := by
  unfold match_distance
  have ha := maximize_isSome a
  have hb := maximize_isSome b
  cases hma : maximize a with
  | none => rw [hma] at ha; exact absurd ha (by simp)
  | some ma =>
    cases hmb : maximize b with
    | none => rw [hmb] at hb; exact absurd hb (by simp)
    | some mb => exact ⟨_, rfl⟩

theorem match_distance_self (d : Nat) : match_distance d d = some 0 := by
  unfold match_distance
  have hd := maximize_isSome d
  cases hm : maximize d with
  | none => rw [hm] at hd; exact absurd hd (by simp)
  | some m => simp [match_distance_region]

theorem matchLookup_bounds {pr : Nat × Nat} {v : Int} (h : matchLookup pr = some v) :
    0 ≤ v ∧ v ≤ 80 := by
  unfold matchLookup at h
  cases hfind : List.find? (fun e => e.1 = pr) MATCH_DISTANCE with
  | none => rw [hfind] at h; exact absurd h (by simp)
  | some e =>
    rw [hfind] at h
    simp only [Option.map] at h
    injection h with hv
    have hmem := List.mem_of_find?_eq_some hfind
    rw [show MATCH_DISTANCE =
        [((langCode "no", langCode "nb"), 0), ((langCode "nb", langCode "no"), 1)] from rfl] at hmem
    rcases List.mem_cons.mp hmem with h1 | h1
    · rw [h1] at hv; omega
    · rcases List.mem_cons.mp h1 with h2 | h2
      · rw [h2] at hv; omega
      · cases h2

theorem match_distance_language_bounds (a b : Nat) :
    0 ≤ match_distance_language a b ∧ match_distance_language a b ≤ 80 := by
  unfold match_distance_language
  by_cases h : a &&& LANGUAGE_EXT_MASK = b &&& LANGUAGE_EXT_MASK
  · simp [h]
  · simp only [h, if_false]
    cases hl : matchLookup (language_pair_bytes (a &&& LANGUAGE_EXT_MASK) (b &&& LANGUAGE_EXT_MASK)) with
    | none => exact ⟨by norm_num, by norm_num⟩
    | some v => exact matchLookup_bounds hl

theorem match_distance_language_eq_zero {a b : Nat}
    (h : a &&& LANGUAGE_EXT_MASK = b &&& LANGUAGE_EXT_MASK) :
    match_distance_language a b = 0 := by
  unfold match_distance_language
  simp [h]

theorem match_distance_script_bounds (a b : Nat) :
    0 ≤ match_distance_script a b ∧ match_distance_script a b ≤ 120 := by
  have hL := match_distance_language_bounds a b
  unfold match_distance_script
  dsimp only
  split
  · norm_num
  · split
    · omega
    · split
      · next dist hdist => have := matchLookup_bounds hdist; omega
      · split_ifs <;> omega

theorem match_distance_script_le_of_lang_eq {a b : Nat}
    (h : a &&& LANGUAGE_EXT_MASK = b &&& LANGUAGE_EXT_MASK) :
    match_distance_script a b ≤ 80 := by
  have hz := match_distance_language_eq_zero h
  unfold match_distance_script
  dsimp only
  split
  · norm_num
  · split
    · omega
    · split
      · next dist hdist => have := matchLookup_bounds hdist; omega
      · split_ifs <;> omega

theorem match_distance_region_bounds (a b : Nat) :
    0 ≤ match_distance_region a b ∧ match_distance_region a b ≤ 124 := by
  have hS := match_distance_script_bounds a b
  unfold match_distance_region
  dsimp only
  split
  · norm_num
  · split
    · next dist hdist => have := matchLookup_bounds hdist; omega
    · by_cases hreq : (a &&& REGION_MASK) = (b &&& REGION_MASK)
      · rw [if_pos hreq]; omega
      · rw [if_neg hreq]
        by_cases hpt : a &&& LANGUAGE_EXT_MASK = PORTUGUESE ∧ b &&& LANGUAGE_EXT_MASK = PORTUGUESE
        · rw [if_pos hpt]
          have hle := match_distance_script_le_of_lang_eq (hpt.1.trans hpt.2.symm)
          split_ifs <;> omega
        · rw [if_neg hpt]
          by_cases hen : a &&& LANGUAGE_EXT_MASK = ENGLISH ∧ b &&& LANGUAGE_EXT_MASK = ENGLISH
          · rw [if_pos hen]
            have hle := match_distance_script_le_of_lang_eq (hen.1.trans hen.2.symm)
            split_ifs <;> omega
          · rw [if_neg hen]
            by_cases hes : a &&& LANGUAGE_EXT_MASK = SPANISH ∧ b &&& LANGUAGE_EXT_MASK = SPANISH
            · rw [if_pos hes]
              have hle := match_distance_script_le_of_lang_eq (hes.1.trans hes.2.symm)
              split_ifs <;> omega
            · rw [if_neg hes]; omega

theorem match_distance_bounds {a b : Nat} {d : Int} (h : match_distance a b = some d) :
    0 ≤ d ∧ d ≤ 124 := by
  unfold match_distance at h
  cases hma : maximize a with
  | none => rw [hma] at h; exact absurd h (by simp)
  | some ma =>
    cases hmb : maximize b with
    | none => rw [hma, hmb] at h; exact absurd h (by simp)
    | some mb =>
      rw [hma, hmb] at h
      injection h with h'
      rw [← h']
      exact match_distance_region_bounds ma mb

/-- With a zero rank penalty, `find_match` scanning a list that contains the
desired code itself stops exactly at the **first** element at distance 0
(the `List.find?` witness) and reports distance 0. -/
theorem find_match_loop_exact (d : Nat) (cutoff : Int) :
    ∀ (l : List Nat) (bm : Nat) (bd bc : Int), d ∈ l → 1 ≤ bc →
      ∃ e, l.find? (fun x => match_distance d x == some 0) = some e ∧
        find_match_loop d 0 cutoff l 0 bm bd bc = some (e, 0) := by
  intro l
  induction l with
  | nil => intro bm bd bc h _; cases h
  | cons o rest ih =>
    intro bm bd bc hmem hbc
    obtain ⟨dist, hdist⟩ := match_distance_total d o
    by_cases hz : dist = 0
    · have hpred : (match_distance d o == some 0) = true := by
        rw [hdist, hz]
        rfl
      refine ⟨o, ?_, ?_⟩
      · exact List.find?_cons_of_pos rest hpred
      · unfold find_match_loop
        rw [hdist]
        simp [hz]
    · have hpred : ¬ (match_distance d o == some 0) = true := by
        rw [hdist]
        simp
        exact hz
      have hod : d ≠ o := by
        intro he
        rw [← he, match_distance_self d] at hdist
        injection hdist with h0
        exact hz h0.symm
      have hrest : d ∈ rest := by
        rcases List.mem_cons.mp hmem with h | h
        · exact absurd h hod
        · exact h
      have hpos : 0 ≤ dist := (match_distance_bounds hdist).1
      have h1 : 1 ≤ dist := by omega
      have hskip : (o :: rest).find? (fun x => match_distance d x == some 0) =
          rest.find? (fun x => match_distance d x == some 0) :=
        List.find?_cons_of_neg rest hpred
      unfold find_match_loop
      rw [hdist]
      dsimp only
      rw [if_neg hz]
      by_cases hupd : dist < cutoff ∧ dist + 0 < bc
      · rw [if_pos hupd, if_pos hupd, if_pos hupd]
        rw [if_neg (by omega : ¬ (0 + 0 : Int) ≥ dist + 0)]
        have h00 : (0 + 0 : Int) = 0 := by norm_num
        rw [h00]
        obtain ⟨e, he1, he3⟩ := ih o dist (dist + 0) hrest (by omega)
        exact ⟨e, by rw [hskip, he1], he3⟩
      · rw [if_neg hupd, if_neg hupd, if_neg hupd]
        rw [if_neg (by omega : ¬ (0 + 0 : Int) ≥ bc)]
        have h00 : (0 + 0 : Int) = 0 := by norm_num
        rw [h00]
        obtain ⟨e, he1, he3⟩ := ih bm bd bc hrest hbc
        exact ⟨e, by rw [hskip, he1], he3⟩

/-! ## Claim C3 -/

/-- C3 (amended): if `d` occurs in `S`, `match_supported_with_cutoff`
returns `d` itself with distance 0 regardless of position (its equality
pre-scan guarantees this); the default-cutoff `match_supported` has no such
pre-scan: it returns distance 0 together with the **first** element of `S`
whose distance to `d` is 0 (the `List.find?` witness for that predicate) —
an element that equals `d` only when no earlier element of `S` is at
distance 0. -/
theorem C3_exact_match (d : Nat) (S : List Nat) (cutoff : Int) (h : d ∈ S) :
    match_supported_with_cutoff d cutoff S = some (d, 0) ∧
    ∃ e, S.find? (fun x => match_distance d x == some 0) = some e ∧
      e ∈ S ∧ match_distance d e = some 0 ∧
      match_supported d S = some (e, 0) := by
  constructor
  · unfold match_supported_with_cutoff
    rw [if_pos (List.elem_eq_true_of_mem h)]
  · obtain ⟨e, hfind, hloop⟩ :=
      find_match_loop_exact d 25 S UNKNOWN 1000 1000 h (by norm_num)
    refine ⟨e, hfind, List.mem_of_find?_eq_some hfind, ?_, hloop⟩
    have := List.find?_some hfind
    simpa using this

/-- C3 counterexample: the claim as stated fails for the default-cutoff
variant: `en` is present in `[en-Latn, en]`, but `match_supported` returns
the *earlier* element `en-Latn` (at distance 0 from `en`, yet not equal to
it), so the equal element is not what is returned. -/
theorem C3_earlier_distance_zero_element_wins :
    langCode "en" ∈ [langCode "en-Latn", langCode "en"] ∧
    match_supported (langCode "en") [langCode "en-Latn", langCode "en"] =
      some (langCode "en-Latn", 0) ∧
    langCode "en-Latn" ≠ langCode "en" := by
  decide

/-- Witness for C3 at `d = en`, `S = [ja, en]`, cutoff 25. -/
theorem C3_exact_match_witness :
    match_supported_with_cutoff (langCode "en") 25 [langCode "ja", langCode "en"] =
      some (langCode "en", 0) ∧
    ∃ e, [langCode "ja", langCode "en"].find?
        (fun x => match_distance (langCode "en") x == some 0) = some e ∧
      e ∈ [langCode "ja", langCode "en"] ∧
      match_distance (langCode "en") e = some 0 ∧
      match_supported (langCode "en") [langCode "ja", langCode "en"] = some (e, 0) :=
  C3_exact_match (langCode "en") [langCode "ja", langCode "en"] 25 (by decide)

/-! ## Claim C4 -/

/-- C4 (amended): `maximize(a) == maximize(b)` still implies
`distance(a,b) == 0`, but the converse direction of the claim fails: a
zero-valued `MATCH_DISTANCE` entry for a pair of codes with different
maximized forms (as the table has for `(no, nb)`) gives distance 0 without
maximized-equality. -/
theorem C4_maximize_eq_gives_zero (a b m : Nat)
    (ha : maximize a = some m) (hb : maximize b = some m) :
    match_distance a b = some 0 := by
  unfold match_distance
  rw [ha, hb]
  dsimp only
  unfold match_distance_region
  rw [if_pos rfl]

/-- C4 counterexample: `distance(no, nb) = 0` although
`maximize(no) = no-Latn-NO ≠ nb-Latn-NO = maximize(nb)`. -/
theorem C4_zero_without_maximize_eq :
    match_distance (langCode "no") (langCode "nb") = some 0 ∧
    maximize (langCode "no") ≠ maximize (langCode "nb") := by
  decide

/-- Witness for C4 at `a = en`, `b = en-Latn`, both maximizing to
`en-Latn-US`. -/
theorem C4_maximize_eq_gives_zero_witness :
    match_distance (langCode "en") (langCode "en-Latn") = some 0 :=
  C4_maximize_eq_gives_zero _ _ (langCode "en-Latn-US") (by decide) (by decide)

/-! ## Claim C5 -/

/-- C5: for every pair of codes on which `match_distance` is defined (i.e.
`maximize` does not hit the missing-data panic), the distance lies between 0
and 124. -/
theorem C5_distance_in_range (a b : Nat) (d : Int) (h : match_distance a b = some d) :
    0 ≤ d ∧ d ≤ 124 :=
  match_distance_bounds h

/-- Witness for C5 at the unrelated pair `(en, ja)`, whose distance is 80
under the modelled tables. -/
theorem C5_distance_in_range_witness : (0 : Int) ≤ 80 ∧ (80 : Int) ≤ 124 :=
  C5_distance_in_range (langCode "en") (langCode "ja") 80 (by decide)

/-! ## Subtag codec round-trip lemmas -/

theorem letterVal_foldl_lt :
    ∀ (s : Str) (v B : Nat), allLower s → v < B →
      s.foldl (fun v c => v * 32 + (c.toNat - 96)) v < B * 32 ^ s.length := by
  intro s
  induction s with
  | nil => intro v B _ hv; simpa using hv
  | cons c cs ih =>
    intro v B hl hv
    have hc : isLowerAlpha c = true := by
      have := List.all_eq_true.mp hl c (List.mem_cons_self c cs)
      exact this
    have hc' : c.toNat ≤ 122 := by
      simp [isLowerAlpha] at hc
      omega
    have hstep : v * 32 + (c.toNat - 96) < B * 32 := by omega
    have hcs : allLower cs = true := by
      apply List.all_eq_true.mpr
      intro x hx
      exact List.all_eq_true.mp hl x (List.mem_cons_of_mem c hx)
    have := ih (v * 32 + (c.toNat - 96)) (B * 32) hcs hstep
    calc List.foldl (fun v c => v * 32 + (c.toNat - 96)) (v * 32 + (c.toNat - 96)) cs
        < B * 32 * 32 ^ cs.length := this
      _ = B * 32 ^ (c :: cs).length := by rw [List.length_cons]; ring

theorem letterVal_lt {s : Str} (h : allLower s) (h1 : s ≠ []) :
    letterVal s < 27 * 32 ^ (s.length - 1) := by
  cases s with
  | nil => exact absurd rfl h1
  | cons c cs =>
    have hc : isLowerAlpha c = true := List.all_eq_true.mp h c (List.mem_cons_self c cs)
    have hc' : c.toNat ≤ 122 := by simp [isLowerAlpha] at hc; omega
    have hcs : allLower cs = true := by
      apply List.all_eq_true.mpr
      intro x hx
      exact List.all_eq_true.mp h x (List.mem_cons_of_mem c hx)
    have h0 : (0 : Nat) * 32 + (c.toNat - 96) < 27 := by omega
    have := letterVal_foldl_lt cs (0 * 32 + (c.toNat - 96)) 27 hcs h0
    simpa [letterVal, List.foldl] using this

theorem letterVal_pos {s : Str} (h : allLower s) (h1 : s ≠ []) : 1 ≤ letterVal s := by
  cases s with
  | nil => exact absurd rfl h1
  | cons c cs =>
    have hc : isLowerAlpha c = true := List.all_eq_true.mp h c (List.mem_cons_self c cs)
    have hc' : 97 ≤ c.toNat := by simp [isLowerAlpha] at hc; omega
    have : ∀ (l : Str) (v : Nat), 1 ≤ v →
        1 ≤ l.foldl (fun v c => v * 32 + (c.toNat - 96)) v := by
      intro l
      induction l with
      | nil => intro v hv; simpa using hv
      | cons d ds ih =>
        intro v hv
        rw [List.foldl_cons]
        exact ih (v * 32 + (d.toNat - 96)) (by omega)
    have h0 : 1 ≤ (0 : Nat) * 32 + (c.toNat - 96) := by omega
    simpa [letterVal, List.foldl] using this cs _ h0

theorem letterVal_append_singleton (s : Str) (c : Char) :
    letterVal (s ++ [c]) = letterVal s * 32 + (c.toNat - 96) := by
  simp [letterVal, List.foldl_append]

theorem foldl_encodeStep_eq :
    ∀ (s : Str) (v B : Nat), allLower s → v < B → B * 32 ^ s.length ≤ 2 ^ 64 →
      s.foldl encodeStep v = s.foldl (fun v c => v * 32 + (c.toNat - 96)) v := by
  intro s
  induction s with
  | nil => intro v B _ _ _; rfl
  | cons c cs ih =>
    intro v B hl hv hB
    have hc : isLowerAlpha c = true := List.all_eq_true.mp hl c (List.mem_cons_self c cs)
    have hc' : c.toNat ≤ 122 := by simp [isLowerAlpha] at hc; omega
    have hcs : allLower cs = true := by
      apply List.all_eq_true.mpr
      intro x hx
      exact List.all_eq_true.mp hl x (List.mem_cons_of_mem c hx)
    have hlen : B * 32 * 32 ^ cs.length ≤ 2 ^ 64 := by
      calc B * 32 * 32 ^ cs.length = B * 32 ^ (c :: cs).length := by
            rw [List.length_cons]; ring
        _ ≤ 2 ^ 64 := hB
    have hmul : v * 32 < 2 ^ 64 := by
      have h32 : (32 : Nat) ^ cs.length ≥ 1 := Nat.one_le_pow _ _ (by norm_num)
      have : B * 32 ≤ 2 ^ 64 := by nlinarith
      omega
    have hstep : encodeStep v c = v * 32 + (c.toNat - 96) := by
      unfold encodeStep
      rw [Nat.mod_eq_of_lt hmul, Nat.mod_eq_of_lt (by omega : c.toNat < 256)]
    rw [List.foldl_cons, List.foldl_cons, hstep]
    exact ih (v * 32 + (c.toNat - 96)) (B * 32) hcs (by omega) hlen

theorem parseU64_alpha {s : Str} (h : allLower s) (h1 : s ≠ []) : parseU64 s = none := by
  cases s with
  | nil => exact absurd rfl h1
  | cons c cs =>
    have hc : isLowerAlpha c = true := List.all_eq_true.mp h c (List.mem_cons_self c cs)
    have hc' : 97 ≤ c.toNat := by simp [isLowerAlpha] at hc; omega
    have hd : isDigitChar c = false := by simp [isDigitChar]; omega
    unfold parseU64
    rw [if_neg]
    intro ⟨_, hall⟩
    have := List.all_eq_true.mp hall c (List.mem_cons_self c cs)
    rw [hd] at this
    exact Bool.noConfusion this

theorem encode_subtag_alpha {s : Str} {k : Nat} (h : allLower s) (h1 : s ≠ [])
    (h2 : s.length ≤ k) (hk : k ≤ 4) :
    encode_subtag s k = some (letterVal s <<< (5 * (k - s.length)) + 1000) := by
  have hlt : letterVal s < 27 * 32 ^ (s.length - 1) := letterVal_lt h h1
  have hlen1 : 1 ≤ s.length := List.length_pos.mpr h1
  have hshift : letterVal s <<< (5 * (k - s.length)) < 27 * 32 ^ (k - 1) := by
    rw [Nat.shiftLeft_eq]
    have : (2 : Nat) ^ (5 * (k - s.length)) = 32 ^ (k - s.length) := by
      rw [show (32 : Nat) = 2 ^ 5 from rfl, ← Nat.pow_mul]
    rw [this]
    calc letterVal s * 32 ^ (k - s.length)
        < 27 * 32 ^ (s.length - 1) * 32 ^ (k - s.length) := by
          have hp : (32 : Nat) ^ (k - s.length) ≥ 1 := Nat.one_le_pow _ _ (by norm_num)
          exact Nat.mul_lt_mul_of_lt_of_le hlt (le_refl _) (by omega)
      _ = 27 * 32 ^ (k - 1) := by
          rw [Nat.mul_assoc, ← Nat.pow_add]
          congr 2
          omega
  have hsmall : letterVal s <<< (5 * (k - s.length)) + 1000 < 2 ^ 64 := by
    have h1' : (27 : Nat) * 32 ^ (k - 1) ≤ 27 * 32 ^ 3 := by
      have : (32 : Nat) ^ (k - 1) ≤ 32 ^ 3 := Nat.pow_le_pow_right (by norm_num) (by omega)
      omega
    have h2' : (27 : Nat) * 32 ^ 3 = 884736 := by norm_num
    omega
  unfold encode_subtag
  rw [parseU64_alpha h h1]
  have hund : (s.any fun c => c.toNat % 256 < 96) = false := by
    apply List.any_eq_false.mpr
    intro c hc
    have h97 : 97 ≤ c.toNat ∧ c.toNat ≤ 122 := by
      have := List.all_eq_true.mp h c hc
      simp [isLowerAlpha] at this
      omega
    simp
    rw [Nat.mod_eq_of_lt (by omega)]
    omega
  rw [hund]
  simp only [Bool.false_eq_true, if_false]
  rw [if_neg (by omega : ¬ k < s.length)]
  have hfold : s.foldl encodeStep 0 = letterVal s := by
    have h32 : (32 : Nat) ^ s.length ≤ 2 ^ 64 := by
      calc (32 : Nat) ^ s.length ≤ 32 ^ 4 := Nat.pow_le_pow_right (by norm_num) (by omega)
        _ ≤ 2 ^ 64 := by norm_num
    exact foldl_encodeStep_eq s 0 1 h (by norm_num) (by omega)
  rw [hfold, Nat.mod_eq_of_lt (by omega : letterVal s <<< (5 * (k - s.length)) < 2 ^ 64)]
  rw [if_pos hsmall]

theorem encoded_alpha_lt {s : Str} {k : Nat} (h : allLower s) (h1 : s ≠ [])
    (h2 : s.length ≤ k) (hk : k ≤ 4) :
    letterVal s <<< (5 * (k - s.length)) + 1000 < 27 * 32 ^ (k - 1) + 1000 := by
  have hlt : letterVal s < 27 * 32 ^ (s.length - 1) := letterVal_lt h h1
  have hlen1 : 1 ≤ s.length := List.length_pos.mpr h1
  have hshift : letterVal s <<< (5 * (k - s.length)) < 27 * 32 ^ (k - 1) := by
    rw [Nat.shiftLeft_eq]
    have hpow : (2 : Nat) ^ (5 * (k - s.length)) = 32 ^ (k - s.length) := by
      rw [show (32 : Nat) = 2 ^ 5 from rfl, ← Nat.pow_mul]
    rw [hpow]
    calc letterVal s * 32 ^ (k - s.length)
        < 27 * 32 ^ (s.length - 1) * 32 ^ (k - s.length) := by
          have hp : (32 : Nat) ^ (k - s.length) ≥ 1 := Nat.one_le_pow _ _ (by norm_num)
          exact Nat.mul_lt_mul_of_lt_of_le hlt (le_refl _) (by omega)
      _ = 27 * 32 ^ (k - 1) := by
          rw [Nat.mul_assoc, ← Nat.pow_add]
          congr 2
          omega
  omega

theorem digitVal_foldl_lt :
    ∀ (s : Str) (v B : Nat), allDigit s → v < B →
      s.foldl (fun a c => a * 10 + (c.toNat - 48)) v < B * 10 ^ s.length := by
  intro s
  induction s with
  | nil => intro v B _ hv; simpa using hv
  | cons c cs ih =>
    intro v B hl hv
    have hc : isDigitChar c = true := List.all_eq_true.mp hl c (List.mem_cons_self c cs)
    have hc' : c.toNat ≤ 57 := by simp [isDigitChar] at hc; omega
    have hcs : allDigit cs = true := by
      apply List.all_eq_true.mpr
      intro x hx
      exact List.all_eq_true.mp hl x (List.mem_cons_of_mem c hx)
    have := ih (v * 10 + (c.toNat - 48)) (B * 10) hcs (by omega)
    rw [List.foldl_cons]
    calc List.foldl (fun a c => a * 10 + (c.toNat - 48)) (v * 10 + (c.toNat - 48)) cs
        < B * 10 * 10 ^ cs.length := this
      _ = B * 10 ^ (c :: cs).length := by rw [List.length_cons]; ring

theorem digitVal_lt {s : Str} (h : allDigit s) : digitVal s < 10 ^ s.length := by
  have := digitVal_foldl_lt s 0 1 h (by norm_num)
  simpa [digitVal] using this

theorem parseU64_digits {s : Str} (h : allDigit s) (h1 : s ≠ []) (h2 : s.length ≤ 3) :
    parseU64 s = some (digitVal s) := by
  have hlt : digitVal s < 10 ^ s.length := digitVal_lt h
  have h3 : (10 : Nat) ^ s.length ≤ 10 ^ 3 := Nat.pow_le_pow_right (by norm_num) h2
  unfold parseU64
  rw [if_pos ⟨h1, h⟩]
  dsimp only
  have hv : s.foldl (fun a c => a * 10 + (c.toNat - 48)) 0 = digitVal s := rfl
  have hlt64 : digitVal s < 2 ^ 64 := by
    have h1000 : (10 : Nat) ^ 3 = 1000 := by norm_num
    omega
  rw [hv, if_pos hlt64]

theorem encode_subtag_digits {s : Str} (h : allDigit s) (h1 : s ≠ []) (h2 : s.length ≤ 3)
    (k : Nat) : encode_subtag s k = some (digitVal s) := by
  unfold encode_subtag
  rw [parseU64_digits h h1 h2]

theorem decodeLettersAux_fuel :
    ∀ (remain : Nat), ∀ (fuel fuel' : Nat), remain ≤ fuel → remain ≤ fuel' →
      decodeLettersAux fuel remain = decodeLettersAux fuel' remain := by
  intro remain
  induction remain using Nat.strong_induction_on with
  | _ remain ih =>
    intro fuel fuel' hf hf'
    by_cases h0 : remain = 0
    · subst h0
      cases fuel <;> cases fuel' <;> simp [decodeLettersAux]
    · have h1 : 1 ≤ remain := by omega
      obtain ⟨f, rfl⟩ : ∃ f, fuel = f + 1 := ⟨fuel - 1, by omega⟩
      obtain ⟨f', rfl⟩ : ∃ f', fuel' = f' + 1 := ⟨fuel' - 1, by omega⟩
      unfold decodeLettersAux
      rw [if_neg h0, if_neg h0]
      have hdiv : remain >>> 5 < remain := by
        rw [Nat.shiftRight_eq_div_pow]
        exact Nat.div_lt_self (by omega) (by norm_num)
      rw [ih (remain >>> 5) hdiv f f' (by omega) (by omega)]

theorem decodeLettersAux_succ (fuel remain : Nat) :
    decodeLettersAux (fuel + 1) remain =
      if remain = 0 then []
      else (if remain % 32 > 0 then [Char.ofNat (96 + remain % 32)] else []) ++
        decodeLettersAux fuel (remain >>> 5) := rfl

theorem decodeLetters_mul32 (x : Nat) : decodeLetters (32 * x) = decodeLetters x := by
  by_cases h0 : x = 0
  · subst h0; rfl
  · unfold decodeLetters
    obtain ⟨f, hf⟩ : ∃ f, 32 * x = f + 1 := ⟨32 * x - 1, by omega⟩
    have hmod : (f + 1) % 32 = 0 := by omega
    have hshift : (f + 1) >>> 5 = x := by
      rw [Nat.shiftRight_eq_div_pow]
      omega
    rw [hf, decodeLettersAux_succ, if_neg (by omega : ¬ f + 1 = 0), hmod, hshift]
    rw [decodeLettersAux_fuel x f x (by omega) (le_refl x)]
    simp

theorem decodeLetters_step (x d : Nat) (h1 : 1 ≤ d) (h2 : d ≤ 31) :
    decodeLetters (32 * x + d) = decodeLetters x ++ [Char.ofNat (96 + d)] := by
  unfold decodeLetters
  obtain ⟨f, hf⟩ : ∃ f, 32 * x + d = f + 1 := ⟨32 * x + d - 1, by omega⟩
  have hmod : (f + 1) % 32 = d := by omega
  have hshift : (f + 1) >>> 5 = x := by
    rw [Nat.shiftRight_eq_div_pow]
    omega
  rw [hf, decodeLettersAux_succ, if_neg (by omega : ¬ f + 1 = 0), hmod, hshift]
  rw [if_pos (by omega : d > 0)]
  rw [decodeLettersAux_fuel x f x (by omega) (le_refl x)]
  simp

theorem decodeLetters_letterVal : ∀ (s : Str), allLower s → decodeLetters (letterVal s) = s := by
  intro s
  induction s using List.reverseRecOn with
  | nil => intro _; rfl
  | append_singleton s c ih =>
    intro h
    have hs : allLower s = true := by
      apply List.all_eq_true.mpr
      intro x hx
      exact List.all_eq_true.mp h x (List.mem_append.mpr (Or.inl hx))
    have hc : isLowerAlpha c = true :=
      List.all_eq_true.mp h c (List.mem_append.mpr (Or.inr (List.mem_singleton.mpr rfl)))
    have hc' : 97 ≤ c.toNat ∧ c.toNat ≤ 122 := by simp [isLowerAlpha] at hc; omega
    rw [letterVal_append_singleton, Nat.mul_comm]
    rw [decodeLetters_step (letterVal s) (c.toNat - 96) (by omega) (by omega)]
    rw [ih hs]
    congr 1
    rw [show 96 + (c.toNat - 96) = c.toNat by omega]
    rw [Char.ofNat_toNat]

theorem decodeLetters_shift (x : Nat) : ∀ (p : Nat), decodeLetters (x <<< (5 * p)) = decodeLetters x := by
  intro p
  induction p with
  | zero => simp
  | succ q ih =>
    have : x <<< (5 * (q + 1)) = 32 * (x <<< (5 * q)) := by
      rw [Nat.shiftLeft_eq, Nat.shiftLeft_eq, Nat.mul_succ, Nat.pow_add]
      ring
    rw [this, decodeLetters_mul32, ih]

theorem decode_subtag_alpha {s : Str} {k : Nat} (h : allLower s) (h1 : s ≠ [])
    (_h2 : s.length ≤ k) (_hk : k ≤ 4) :
    decode_subtag (letterVal s <<< (5 * (k - s.length)) + 1000) = some s := by
  have hpos : 1 ≤ letterVal s := letterVal_pos h h1
  have hsh : 1 ≤ letterVal s <<< (5 * (k - s.length)) := by
    rw [Nat.shiftLeft_eq]
    have hp : 1 ≤ (2 : Nat) ^ (5 * (k - s.length)) := Nat.one_le_pow _ _ (by norm_num)
    exact Nat.one_le_iff_ne_zero.mpr (Nat.mul_ne_zero (by omega) (by omega))
  unfold decode_subtag
  rw [if_neg (by omega), if_neg (by omega)]
  rw [Nat.add_sub_cancel]
  show some (decodeLetters (letterVal s <<< (5 * (k - s.length)))) = some s
  rw [decodeLetters_shift, decodeLetters_letterVal s h]

theorem pad3_eval : ∀ v : Nat, v < 1000 → 1 ≤ v →
    pad3 v = [Char.ofNat (48 + v / 100), Char.ofNat (48 + v / 10 % 10),
              Char.ofNat (48 + v % 10)] := by
  decide

theorem decode_subtag_digits {s : Str} (h : allDigit s) (h3 : s.length = 3)
    (hnz : 1 ≤ digitVal s) : decode_subtag (digitVal s) = some s := by
  obtain ⟨a, b, c, rfl⟩ := List.length_eq_three.mp h3
  have ha : 48 ≤ a.toNat ∧ a.toNat ≤ 57 := by
    have := List.all_eq_true.mp h a (by simp)
    simp [isDigitChar] at this
    omega
  have hb : 48 ≤ b.toNat ∧ b.toNat ≤ 57 := by
    have := List.all_eq_true.mp h b (by simp)
    simp [isDigitChar] at this
    omega
  have hc : 48 ≤ c.toNat ∧ c.toNat ≤ 57 := by
    have := List.all_eq_true.mp h c (by simp)
    simp [isDigitChar] at this
    omega
  have hval : digitVal [a, b, c] =
      100 * (a.toNat - 48) + 10 * (b.toNat - 48) + (c.toNat - 48) := by
    simp [digitVal, List.foldl]
    omega
  have hlt : digitVal [a, b, c] < 1000 := by omega
  unfold decode_subtag
  rw [if_neg (by omega), if_pos hlt]
  rw [pad3_eval _ hlt hnz]
  have e1 : 48 + digitVal [a, b, c] / 100 = a.toNat := by omega
  have e2 : 48 + digitVal [a, b, c] / 10 % 10 = b.toNat := by omega
  have e3 : 48 + digitVal [a, b, c] % 10 = c.toNat := by omega
  rw [e1, e2, e3, Char.ofNat_toNat, Char.ofNat_toNat, Char.ofNat_toNat]

/-- Extraction of every field of the packed code. -/
theorem code_fields (la ex pr sc re : Nat) (hla : la < 2 ^ 15) (hex : ex < 2 ^ 15)
    (hpr : pr ≤ 1) (hsc : sc < 2 ^ 20) (hre : re < 2 ^ 11) :
    ((((((la <<< 48) ||| (ex <<< 32)) ||| (pr <<< 47)) ||| (sc <<< 11)) ||| re)
        &&& LANGUAGE_MASK) >>> 48 = la ∧
    ((((((la <<< 48) ||| (ex <<< 32)) ||| (pr <<< 47)) ||| (sc <<< 11)) ||| re)
        &&& EXTLANG_MASK) >>> 32 = ex ∧
    (((((la <<< 48) ||| (ex <<< 32)) ||| (pr <<< 47)) ||| (sc <<< 11)) ||| re)
        &&& PROTO_MASK = pr <<< 47 ∧
    ((((((la <<< 48) ||| (ex <<< 32)) ||| (pr <<< 47)) ||| (sc <<< 11)) ||| re)
        &&& SCRIPT_MASK) >>> 11 = sc ∧
    (((((la <<< 48) ||| (ex <<< 32)) ||| (pr <<< 47)) ||| (sc <<< 11)) ||| re)
        &&& REGION_MASK = re := by
  have hre' : re = re <<< 0 := by simp
  have hpr2 : pr < 2 ^ 1 := by omega
  have hML : LANGUAGE_MASK = bitRange 48 15 := by decide
  have hME : EXTLANG_MASK = bitRange 32 15 := by decide
  have hMP : PROTO_MASK = bitRange 47 1 := by decide
  have hMS : SCRIPT_MASK = bitRange 11 20 := by decide
  have hMR : REGION_MASK = bitRange 0 11 := by decide
  refine ⟨?_, ?_, ?_, ?_, ?_⟩
  · rw [hML]
    rw [lor_and_distrib, lor_and_distrib, lor_and_distrib, lor_and_distrib]
    rw [and_bitRange_keep 48 48 15 hla (le_refl 48) (by norm_num)]
    rw [and_bitRange_drop 32 48 15 hex (Or.inl (by norm_num))]
    rw [and_bitRange_drop 47 48 15 hpr2 (Or.inl (by norm_num))]
    rw [and_bitRange_drop 11 48 15 hsc (Or.inl (by norm_num))]
    rw [hre', and_bitRange_drop 0 48 15 hre (Or.inl (by norm_num))]
    simp
  · rw [hME]
    rw [lor_and_distrib, lor_and_distrib, lor_and_distrib, lor_and_distrib]
    rw [and_bitRange_drop 48 32 15 hla (Or.inr (by norm_num))]
    rw [and_bitRange_keep 32 32 15 hex (le_refl 32) (by norm_num)]
    rw [and_bitRange_drop 47 32 15 hpr2 (Or.inr (by norm_num))]
    rw [and_bitRange_drop 11 32 15 hsc (Or.inl (by norm_num))]
    rw [hre', and_bitRange_drop 0 32 15 hre (Or.inl (by norm_num))]
    simp
  · rw [hMP]
    rw [lor_and_distrib, lor_and_distrib, lor_and_distrib, lor_and_distrib]
    rw [and_bitRange_drop 48 47 1 hla (Or.inr (by norm_num))]
    rw [and_bitRange_drop 32 47 1 hex (Or.inl (by norm_num))]
    rw [and_bitRange_keep 47 47 1 hpr2 (le_refl 47) (by norm_num)]
    rw [and_bitRange_drop 11 47 1 hsc (Or.inl (by norm_num))]
    rw [hre', and_bitRange_drop 0 47 1 hre (Or.inl (by norm_num))]
    simp
  · rw [hMS]
    rw [lor_and_distrib, lor_and_distrib, lor_and_distrib, lor_and_distrib]
    rw [and_bitRange_drop 48 11 20 hla (Or.inr (by norm_num))]
    rw [and_bitRange_drop 32 11 20 hex (Or.inr (by norm_num))]
    rw [and_bitRange_drop 47 11 20 hpr2 (Or.inr (by norm_num))]
    rw [and_bitRange_keep 11 11 20 hsc (le_refl 11) (by norm_num)]
    rw [hre', and_bitRange_drop 0 11 20 hre (Or.inl (by norm_num))]
    simp
  · rw [hMR]
    rw [lor_and_distrib, lor_and_distrib, lor_and_distrib, lor_and_distrib]
    rw [and_bitRange_drop 48 0 11 hla (Or.inr (by norm_num))]
    rw [and_bitRange_drop 32 0 11 hex (Or.inr (by norm_num))]
    rw [and_bitRange_drop 47 0 11 hpr2 (Or.inr (by norm_num))]
    rw [and_bitRange_drop 11 0 11 hsc (Or.inr (by norm_num))]
    rw [hre', and_bitRange_keep 0 0 11 hre (le_refl 0) (by norm_num)]
    simp

/-! ## Well-formedness destructors and field bounds -/

theorem wfTag_lang {T : WfTag} (h : wfTag T = true) :
    T.lang = "und".toList ∨
      (2 ≤ T.lang.length ∧ T.lang.length ≤ 3 ∧ allLower T.lang = true) := by
  unfold wfTag at h
  simp only [Bool.and_eq_true, Bool.or_eq_true, beq_iff_eq, decide_eq_true_eq] at h
  rcases h.1.1.1 with h1 | h1
  · exact Or.inl h1
  · right
    exact ⟨h1.1.1, h1.1.2, h1.2⟩

theorem wfTag_ext {T : WfTag} (h : wfTag T = true) :
    ∀ e, T.ext = some e → e.length = 3 ∧ allLower e = true ∧ e ≠ "pro".toList := by
  intro e he
  unfold wfTag at h
  simp only [Bool.and_eq_true] at h
  have := h.1.1.2
  rw [he] at this
  simp only [Option.all_some, Bool.and_eq_true, beq_iff_eq, bne_iff_ne] at this
  exact ⟨this.1.1, this.1.2, this.2⟩

theorem wfTag_script {T : WfTag} (h : wfTag T = true) :
    ∀ sc, T.script = some sc → sc.length = 4 ∧ allLower sc = true := by
  intro sc hsc
  unfold wfTag at h
  simp only [Bool.and_eq_true] at h
  have := h.1.2
  rw [hsc] at this
  simp only [Option.all_some, Bool.and_eq_true, beq_iff_eq] at this
  exact this

theorem wfTag_region {T : WfTag} (h : wfTag T = true) :
    ∀ r, T.region = some r →
      (r.length = 2 ∧ allLower r = true) ∨
      (r.length = 3 ∧ allDigit r = true ∧ r ≠ "000".toList) := by
  intro r hr
  unfold wfTag at h
  simp only [Bool.and_eq_true] at h
  have := h.2
  rw [hr] at this
  simp only [Option.all_some, Bool.and_eq_true, Bool.or_eq_true, beq_iff_eq,
    bne_iff_ne] at this
  rcases this with h1 | h1
  · exact Or.inl h1
  · exact Or.inr ⟨h1.1.1, h1.1.2, h1.2⟩

theorem encVal_alpha {s : Str} {k : Nat} (h : allLower s) (h1 : s ≠ [])
    (h2 : s.length ≤ k) (hk : k ≤ 4) :
    encode_subtag s k = some (encVal s k) ∧
    decode_subtag (encVal s k) = some s ∧
    1000 < encVal s k ∧ encVal s k < 27 * 32 ^ (k - 1) + 1000 := by
  have henc := encode_subtag_alpha h h1 h2 hk
  have hv : encVal s k = letterVal s <<< (5 * (k - s.length)) + 1000 := by
    unfold encVal
    rw [henc]
    rfl
  refine ⟨by rw [henc, hv], by rw [hv]; exact decode_subtag_alpha h h1 h2 hk, ?_, ?_⟩
  · rw [hv]
    have hpos : 1 ≤ letterVal s := letterVal_pos h h1
    have : 1 ≤ letterVal s <<< (5 * (k - s.length)) := by
      rw [Nat.shiftLeft_eq]
      have hp : 1 ≤ (2 : Nat) ^ (5 * (k - s.length)) := Nat.one_le_pow _ _ (by norm_num)
      exact Nat.one_le_iff_ne_zero.mpr (Nat.mul_ne_zero (by omega) (by omega))
    omega
  · rw [hv]
    exact encoded_alpha_lt h h1 h2 hk

theorem digitVal_pos {r : Str} (h : allDigit r) (h3 : r.length = 3)
    (hnz : r ≠ "000".toList) : 1 ≤ digitVal r := by
  obtain ⟨a, b, c, rfl⟩ := List.length_eq_three.mp h3
  have ha : 48 ≤ a.toNat ∧ a.toNat ≤ 57 := by
    have := List.all_eq_true.mp h a (by simp)
    simp [isDigitChar] at this
    omega
  have hb : 48 ≤ b.toNat ∧ b.toNat ≤ 57 := by
    have := List.all_eq_true.mp h b (by simp)
    simp [isDigitChar] at this
    omega
  have hc : 48 ≤ c.toNat ∧ c.toNat ≤ 57 := by
    have := List.all_eq_true.mp h c (by simp)
    simp [isDigitChar] at this
    omega
  have hval : digitVal [a, b, c] =
      100 * (a.toNat - 48) + 10 * (b.toNat - 48) + (c.toNat - 48) := by
    simp [digitVal, List.foldl]
    omega
  by_contra hlt
  have h0 : digitVal [a, b, c] = 0 := by omega
  apply hnz
  have ha0 : a.toNat = 48 := by omega
  have hb0 : b.toNat = 48 := by omega
  have hc0 : c.toNat = 48 := by omega
  have ha' : a = '0' := by
    rw [← Char.ofNat_toNat a, ha0]
  have hb' : b = '0' := by
    rw [← Char.ofNat_toNat b, hb0]
  have hc' : c = '0' := by
    rw [← Char.ofNat_toNat c, hc0]
  rw [ha', hb', hc']
  rfl

theorem encVal_digits {r : Str} (h : allDigit r) (h3 : r.length = 3)
    (hnz : r ≠ "000".toList) :
    encode_subtag r 2 = some (encVal r 2) ∧
    decode_subtag (encVal r 2) = some r ∧
    1 ≤ encVal r 2 ∧ encVal r 2 < 1000 := by
  have h1 : r ≠ [] := by intro he; rw [he] at h3; simp at h3
  have henc := encode_subtag_digits h h1 (by omega) 2
  have hv : encVal r 2 = digitVal r := by
    unfold encVal
    rw [henc]
    rfl
  have hlt : digitVal r < 1000 := by
    have := digitVal_lt h
    rw [h3] at this
    norm_num at this
    exact this
  have hpos := digitVal_pos h h3 hnz
  exact ⟨by rw [henc, hv], by rw [hv]; exact decode_subtag_digits h h3 hpos,
    by omega, by omega⟩

theorem wf_field_bounds {T : WfTag} (h : wfTag T = true) :
    T.langVal < 2 ^ 15 ∧ T.extVal < 2 ^ 15 ∧ T.proVal ≤ 1 ∧
    T.scrVal < 2 ^ 20 ∧ T.regVal < 2 ^ 11 := by
  refine ⟨?_, ?_, ?_, ?_, ?_⟩
  · unfold WfTag.langVal
    by_cases hu : T.lang = "und".toList
    · simp [hu]
    · rw [if_neg hu]
      rcases wfTag_lang h with h1 | h1
      · exact absurd h1 hu
      · have hne : T.lang ≠ [] := by
          intro he
          rw [he] at h1
          simp at h1
        have := (@encVal_alpha T.lang 3 h1.2.2 hne (by omega) (by norm_num)).2.2.2
        calc encVal T.lang 3 < 27 * 32 ^ (3 - 1) + 1000 := this
          _ < 2 ^ 15 := by norm_num
  · unfold WfTag.extVal
    cases he : T.ext with
    | none => simp
    | some e =>
      obtain ⟨hl, ha, _⟩ := wfTag_ext h e he
      have hne : e ≠ [] := by intro h0; rw [h0] at hl; simp at hl
      have := (@encVal_alpha e 3 ha hne (by omega) (by norm_num)).2.2.2
      show encVal e 3 < 2 ^ 15
      calc encVal e 3 < 27 * 32 ^ (3 - 1) + 1000 := this
        _ < 2 ^ 15 := by norm_num
  · unfold WfTag.proVal
    by_cases hp : T.pro <;> simp [hp]
  · unfold WfTag.scrVal
    cases hs : T.script with
    | none => simp
    | some sc =>
      obtain ⟨hl, ha⟩ := wfTag_script h sc hs
      have hne : sc ≠ [] := by intro h0; rw [h0] at hl; simp at hl
      have := (@encVal_alpha sc 4 ha hne (by omega) (by norm_num)).2.2.2
      show encVal sc 4 < 2 ^ 20
      calc encVal sc 4 < 27 * 32 ^ (4 - 1) + 1000 := this
        _ < 2 ^ 20 := by norm_num
  · unfold WfTag.regVal
    cases hr : T.region with
    | none => simp
    | some r =>
      show encVal r 2 < 2 ^ 11
      rcases wfTag_region h r hr with h1 | h1
      · have hne : r ≠ [] := by intro h0; rw [h0] at h1; simp at h1
        have := (@encVal_alpha r 2 h1.2 hne (by omega) (by norm_num)).2.2.2
        calc encVal r 2 < 27 * 32 ^ (2 - 1) + 1000 := this
          _ < 2 ^ 11 := by norm_num
      · have := (encVal_digits h1.2.1 h1.1 h1.2.2).2.2.2
        calc encVal r 2 < 1000 := this
          _ < 2 ^ 11 := by norm_num

theorem code_extract {T : WfTag} (h : wfTag T = true) :
    (T.code &&& LANGUAGE_MASK) >>> 48 = T.langVal ∧
    (T.code &&& EXTLANG_MASK) >>> 32 = T.extVal ∧
    T.code &&& PROTO_MASK = T.proVal <<< 47 ∧
    (T.code &&& SCRIPT_MASK) >>> 11 = T.scrVal ∧
    T.code &&& REGION_MASK = T.regVal := by
  obtain ⟨h1, h2, h3, h4, h5⟩ := wf_field_bounds h
  unfold WfTag.code
  exact code_fields _ _ _ _ _ h1 h2 h3 h4 h5

/-! ## Decoding the structured code -/

theorem decode_language_code {T : WfTag} (h : wfTag T = true) :
    decode_language T.code = T.lang := by
  unfold decode_language
  simp only [LANGUAGE_SHIFT]
  rw [(code_extract h).1]
  unfold WfTag.langVal
  by_cases hu : T.lang = "und".toList
  · rw [if_pos hu, hu]
    rfl
  · rw [if_neg hu]
    rcases wfTag_lang h with h1 | h1
    · exact absurd h1 hu
    · have hne : T.lang ≠ [] := by intro he; rw [he] at h1; simp at h1
      rw [(@encVal_alpha T.lang 3 h1.2.2 hne (by omega) (by norm_num)).2.1]

theorem decode_extlang_code {T : WfTag} (h : wfTag T = true) :
    decode_extlang T.code = T.extCanon := by
  unfold decode_extlang
  simp only [EXTLANG_SHIFT]
  rw [(code_extract h).2.1, (code_extract h).2.2.1]
  unfold WfTag.extVal WfTag.proVal WfTag.extCanon
  cases he : T.ext with
  | none =>
    cases hp : T.pro
    · simp [show decode_subtag 0 = none from rfl]
    · simp [show decode_subtag 0 = none from rfl]
  | some e =>
    obtain ⟨hl, ha, _⟩ := wfTag_ext h e he
    have hne : e ≠ [] := by intro h0; rw [h0] at hl; simp at hl
    have hdec := (@encVal_alpha e 3 ha hne (by omega) (by norm_num)).2.1
    cases hp : T.pro
    · simp only [Option.map_some', Option.getD_some, if_false]
      rw [hdec]
      simp
    · simp only [Option.map_some', Option.getD_some, if_true]
      rw [hdec]
      simp

theorem decode_script_code {T : WfTag} (h : wfTag T = true) :
    decode_script T.code = some (T.script.map titleCase) := by
  unfold decode_script
  simp only [SCRIPT_SHIFT]
  rw [(code_extract h).2.2.2.1]
  unfold WfTag.scrVal
  cases hs : T.script with
  | none => simp [show decode_subtag 0 = none from rfl]
  | some sc =>
    obtain ⟨hl, ha⟩ := wfTag_script h sc hs
    have hne : sc ≠ [] := by intro h0; rw [h0] at hl; simp at hl
    have hdec := (@encVal_alpha sc 4 ha hne (by omega) (by norm_num)).2.1
    simp only [Option.map_some', Option.getD_some]
    rw [hdec]
    cases sc with
    | nil => exact absurd rfl hne
    | cons c cs => rfl

theorem decode_region_code {T : WfTag} (h : wfTag T = true) :
    decode_region T.code = T.region.map (fun r => r.map asciiUpper) := by
  unfold decode_region
  rw [(code_extract h).2.2.2.2]
  unfold WfTag.regVal
  cases hr : T.region with
  | none => simp [show decode_subtag 0 = none from rfl]
  | some r =>
    simp only [Option.map_some', Option.getD_some]
    rcases wfTag_region h r hr with h1 | h1
    · have hne : r ≠ [] := by intro h0; rw [h0] at h1; simp at h1
      rw [(@encVal_alpha r 2 h1.2 hne (by omega) (by norm_num)).2.1]
    · rw [(encVal_digits h1.2.1 h1.1 h1.2.2).2.1]

theorem unparse_code {T : WfTag} (h : wfTag T = true) :
    unparse_tag T.code = some T.canonical := by
  unfold unparse_tag
  rw [decode_script_code h, decode_language_code h, decode_extlang_code h,
    decode_region_code h]
  rfl

/-! ## Splitting the rendered tag -/

theorem splitHyphenAux_no_hyphen :
    ∀ (p : Str) (acc : Str), '-' ∉ p → splitHyphenAux p acc = [acc.reverse ++ p] := by
  intro p
  induction p with
  | nil => intro acc _; simp [splitHyphenAux]
  | cons c cs ih =>
    intro acc hc
    have hc1 : c ≠ '-' := by
      intro he
      exact hc (he ▸ List.mem_cons_self c cs)
    have hc2 : '-' ∉ cs := fun hm => hc (List.mem_cons_of_mem c hm)
    unfold splitHyphenAux
    rw [if_neg hc1, ih (c :: acc) hc2]
    simp

theorem splitHyphen_joinHyphen :
    ∀ (parts : List Str), parts ≠ [] → (∀ p ∈ parts, '-' ∉ p) →
      splitHyphen (joinHyphen parts) = parts := by
  intro parts
  induction parts with
  | nil => intro h _; exact absurd rfl h
  | cons p rest ih =>
    intro _ hh
    cases rest with
    | nil =>
      show splitHyphen (joinHyphen [p]) = [p]
      unfold joinHyphen splitHyphen
      rw [splitHyphenAux_no_hyphen p [] (hh p (List.mem_cons_self p []))]
      rfl
    | cons q rest' =>
      show splitHyphen (p ++ '-' :: joinHyphen (q :: rest')) = p :: q :: rest'
      rw [splitHyphen_append]
      have h1 : splitHyphen p = [p] := by
        unfold splitHyphen
        rw [splitHyphenAux_no_hyphen p [] (hh p (List.mem_cons_self p _))]
        rfl
      rw [h1, ih (by simp) (fun x hx => hh x (List.mem_cons_of_mem p hx))]
      rfl

theorem no_hyphen_of_lower {s : Str} (h : allLower s = true) : '-' ∉ s := by
  intro hm
  have := List.all_eq_true.mp h '-' hm
  simp [isLowerAlpha] at this

theorem no_hyphen_of_digit {s : Str} (h : allDigit s = true) : '-' ∉ s := by
  intro hm
  have := List.all_eq_true.mp h '-' hm
  simp [isDigitChar] at this

theorem wf_tokens_no_hyphen {T : WfTag} (h : wfTag T = true) :
    ∀ p ∈ T.tokens, '-' ∉ p := by
  intro p hp
  unfold WfTag.tokens at hp
  simp only [List.append_assoc, List.mem_append, List.mem_singleton] at hp
  rcases hp with hp | hp | hp | hp | hp
  · subst hp
    rcases wfTag_lang h with h1 | h1
    · rw [h1]
      decide
    · exact no_hyphen_of_lower h1.2.2
  · cases he : T.ext with
    | none => rw [he] at hp; cases hp
    | some e =>
      rw [he] at hp
      simp at hp
      rw [hp]
      exact no_hyphen_of_lower (wfTag_ext h e he).2.1
  · by_cases hpro : T.pro
    · rw [if_pos hpro] at hp
      simp at hp
      rw [hp]
      decide
    · rw [if_neg hpro] at hp
      cases hp
  · cases hs : T.script with
    | none => rw [hs] at hp; cases hp
    | some sc =>
      rw [hs] at hp
      simp at hp
      rw [hp]
      exact no_hyphen_of_lower (wfTag_script h sc hs).2
  · cases hr : T.region with
    | none => rw [hr] at hp; cases hp
    | some r =>
      rw [hr] at hp
      simp at hp
      rw [hp]
      rcases wfTag_region h r hr with h1 | h1
      · exact no_hyphen_of_lower h1.2
      · exact no_hyphen_of_digit h1.2.1

theorem split_render {T : WfTag} (h : wfTag T = true) :
    splitHyphen T.render = T.tokens := by
  unfold WfTag.render
  apply splitHyphen_joinHyphen
  · unfold WfTag.tokens
    simp
  · exact wf_tokens_no_hyphen h

/-! ## Shape facts for well-formed subtags -/

theorem check_characters_of_lower {s : Str} (h : allLower s = true) :
    check_characters s = true := by
  apply List.all_eq_true.mpr
  intro c hc
  have := List.all_eq_true.mp h c hc
  simp [isLowerAlpha] at this
  simp
  omega

theorem check_characters_of_digit {s : Str} (h : allDigit s = true) :
    check_characters s = true := by
  apply List.all_eq_true.mpr
  intro c hc
  have := List.all_eq_true.mp h c hc
  simp [isDigitChar] at this
  simp
  omega

theorem is_extension_of_length {t : Str} (h : t.length ≠ 1) : is_extension t = false := by
  have h1 : t ≠ ['u'] := by intro he; rw [he] at h; simp at h
  have h2 : t ≠ ['x'] := by intro he; rw [he] at h; simp at h
  simp [is_extension, h1, h2]

theorem head_lower_not_digit {c : Char} {cs : Str} (h : allLower (c :: cs) = true) :
    isDigitChar c = false := by
  have := List.all_eq_true.mp h c (List.mem_cons_self c cs)
  simp [isLowerAlpha] at this
  simp [isDigitChar]
  omega

theorem shape_facts_alpha3 {e : Str} (hl : e.length = 3) (ha : allLower e = true) :
    check_characters e = true ∧ is_extension e = false ∧ is_variant e = false ∧
    is_region e = false ∧ is_extlang e = true := by
  obtain ⟨c, cs, rfl⟩ : ∃ c cs, e = c :: cs := by
    cases e with
    | nil => simp at hl
    | cons c cs => exact ⟨c, cs, rfl⟩
  have hl' : cs.length = 2 := by simpa using hl
  have hd := head_lower_not_digit ha
  refine ⟨check_characters_of_lower ha, is_extension_of_length (by simp [hl']), ?_, ?_, ?_⟩
  · unfold is_variant
    rw [if_neg (by simp [hl'])]
    simp [hl']
  · simp [is_region, hd, hl']
  · unfold is_extlang
    rw [if_pos hl]
    simp [hd]

theorem shape_facts_script {sc : Str} (hl : sc.length = 4) (ha : allLower sc = true) :
    check_characters sc = true ∧ is_extension sc = false ∧ is_variant sc = false ∧
    is_region sc = false ∧ is_script sc = true := by
  obtain ⟨c, cs, rfl⟩ : ∃ c cs, sc = c :: cs := by
    cases sc with
    | nil => simp at hl
    | cons c cs => exact ⟨c, cs, rfl⟩
  have hl' : cs.length = 3 := by simpa using hl
  have hd := head_lower_not_digit ha
  refine ⟨check_characters_of_lower ha, is_extension_of_length (by simp [hl']), ?_, ?_, ?_⟩
  · unfold is_variant
    rw [if_pos hl]
    simp [hd]
  · simp [is_region, hd, hl']
  · simp [is_script, hl']

theorem shape_facts_alpha2 {r : Str} (hl : r.length = 2) (ha : allLower r = true) :
    check_characters r = true ∧ is_extension r = false ∧ is_variant r = false ∧
    is_region r = true := by
  obtain ⟨c, cs, rfl⟩ : ∃ c cs, r = c :: cs := by
    cases r with
    | nil => simp at hl
    | cons c cs => exact ⟨c, cs, rfl⟩
  have hl' : cs.length = 1 := by simpa using hl
  refine ⟨check_characters_of_lower ha, is_extension_of_length (by simp [hl']), ?_, ?_⟩
  · unfold is_variant
    rw [if_neg (by simp [hl'])]
    simp [hl']
  · simp [is_region, hl']

theorem shape_facts_digit3 {r : Str} (hl : r.length = 3) (ha : allDigit r = true) :
    check_characters r = true ∧ is_extension r = false ∧ is_variant r = false ∧
    is_region r = true := by
  obtain ⟨c, cs, rfl⟩ : ∃ c cs, r = c :: cs := by
    cases r with
    | nil => simp at hl
    | cons c cs => exact ⟨c, cs, rfl⟩
  have hl' : cs.length = 2 := by simpa using hl
  have hd : isDigitChar c = true := List.all_eq_true.mp ha c (List.mem_cons_self c cs)
  refine ⟨check_characters_of_digit ha, is_extension_of_length (by simp [hl']), ?_, ?_⟩
  · unfold is_variant
    rw [if_neg (by simp [hl'])]
    simp [hl']
  · simp [is_region, hd, hl']

/-! ## Parser step lemmas -/

theorem parseLoop_step_ext (tag : Str) (n : Int) (hn0 : 0 ≤ n) (hn3 : n < 3)
    (val : Nat) (e : Str) (rest : List Str)
    (hl : e.length = 3) (ha : allLower e = true) (hp : e ≠ "pro".toList)
    (hv : val &&& EXTLANG_MASK = 0) :
    parseLoop tag (.afterLanguage n) val (e :: rest) =
      parseLoop tag (.afterLanguage (n + 1)) (val ||| (encVal e 3 <<< EXTLANG_SHIFT)) rest := by
  obtain ⟨hchk, hext, hvar, hreg, hextl⟩ := shape_facts_alpha3 hl ha
  have hscr : is_script e = false := by simp [is_script, hl]
  have hne : e ≠ [] := by intro h0; rw [h0] at hl; simp at hl
  have henc : encode_subtag e 3 = some (encVal e 3) :=
    (@encVal_alpha e 3 ha hne (by omega) (by norm_num)).1
  have hp' : e ≠ ['p', 'r', 'o'] := hp
  simp only [parseLoop]
  simp [hchk, hext, hvar, hreg, hscr, hextl, henc, hp', hv, hn0, hn3]

theorem parseLoop_step_pro (tag : Str) (n : Int) (hn0 : 0 ≤ n) (hn3 : n < 3)
    (val : Nat) (rest : List Str) :
    parseLoop tag (.afterLanguage n) val ("pro".toList :: rest) =
      parseLoop tag (.afterLanguage (n + 1)) (val ||| PROTO_MASK) rest := by
  have hchk : check_characters ['p', 'r', 'o'] = true := by decide
  have hext : is_extension ['p', 'r', 'o'] = false := by decide
  have hvar : is_variant ['p', 'r', 'o'] = false := by decide
  have hreg : is_region ['p', 'r', 'o'] = false := by decide
  have hscr : is_script ['p', 'r', 'o'] = false := by decide
  have hextl : is_extlang ['p', 'r', 'o'] = true := by decide
  simp only [parseLoop]
  simp [hchk, hext, hvar, hreg, hscr, hextl, hn0, hn3]

theorem parseLoop_step_script (tag : Str) (n : Int) (hn0 : 0 ≤ n)
    (val : Nat) (sc : Str) (rest : List Str)
    (hl : sc.length = 4) (ha : allLower sc = true) :
    parseLoop tag (.afterLanguage n) val (sc :: rest) =
      parseLoop tag .afterScript (val ||| (encVal sc 4 <<< SCRIPT_SHIFT)) rest := by
  obtain ⟨hchk, hext, hvar, hreg, hscr⟩ := shape_facts_script hl ha
  have hne : sc ≠ [] := by intro h0; rw [h0] at hl; simp at hl
  have henc : encode_subtag sc 4 = some (encVal sc 4) :=
    (@encVal_alpha sc 4 ha hne (by omega) (by norm_num)).1
  simp only [parseLoop]
  simp [hchk, hext, hvar, hreg, hscr, henc, hn0]

theorem parseLoop_step_region_lang (tag : Str) (n : Int) (hn0 : 0 ≤ n)
    (val : Nat) (r : Str) (rest : List Str)
    (hchk : check_characters r = true) (hext : is_extension r = false)
    (hvar : is_variant r = false) (hreg : is_region r = true)
    (henc : encode_subtag r 2 = some (encVal r 2)) :
    parseLoop tag (.afterLanguage n) val (r :: rest) =
      parseLoop tag .afterRegion (val ||| encVal r 2) rest := by
  simp only [parseLoop]
  simp [hchk, hext, hvar, hreg, henc, hn0]

theorem parseLoop_step_region_script (tag : Str) (val : Nat) (r : Str) (rest : List Str)
    (hchk : check_characters r = true) (hext : is_extension r = false)
    (hvar : is_variant r = false) (hreg : is_region r = true)
    (henc : encode_subtag r 2 = some (encVal r 2)) :
    parseLoop tag .afterScript val (r :: rest) =
      parseLoop tag .afterRegion (val ||| encVal r 2) rest := by
  simp only [parseLoop]
  simp [hchk, hext, hvar, hreg, henc]

theorem region_step_facts {T : WfTag} (h : wfTag T = true) {r : Str}
    (hr : T.region = some r) :
    check_characters r = true ∧ is_extension r = false ∧ is_variant r = false ∧
    is_region r = true ∧ encode_subtag r 2 = some (encVal r 2) := by
  rcases wfTag_region h r hr with h1 | h1
  · obtain ⟨hchk, hext, hvar, hreg⟩ := shape_facts_alpha2 h1.1 h1.2
    have hne : r ≠ [] := by intro h0; rw [h0] at h1; simp at h1
    exact ⟨hchk, hext, hvar, hreg,
      (@encVal_alpha r 2 h1.2 hne (by omega) (by norm_num)).1⟩
  · obtain ⟨hchk, hext, hvar, hreg⟩ := shape_facts_digit3 h1.1 h1.2.1
    exact ⟨hchk, hext, hvar, hreg, (encVal_digits h1.2.1 h1.1 h1.2.2).1⟩

theorem parseLoop_script_region (tag : Str) {T : WfTag} (h : wfTag T = true)
    (n : Int) (hn0 : 0 ≤ n) (val : Nat) :
    parseLoop tag (.afterLanguage n) val (T.script.toList ++ T.region.toList) =
      some (Except.ok ((val ||| (T.scrVal <<< 11)) ||| T.regVal)) := by
  cases hs : T.script with
  | none =>
    cases hr : T.region with
    | none =>
      simp [hs, hr, parseLoop, WfTag.scrVal, WfTag.regVal]
    | some r =>
      obtain ⟨hchk, hext, hvar, hreg, henc⟩ := region_step_facts h hr
      show parseLoop tag (.afterLanguage n) val (r :: []) = _
      rw [parseLoop_step_region_lang tag n hn0 val r [] hchk hext hvar hreg henc]
      simp [parseLoop, WfTag.scrVal, WfTag.regVal, hs, hr]
  | some sc =>
    obtain ⟨hls, has⟩ := wfTag_script h sc hs
    cases hr : T.region with
    | none =>
      show parseLoop tag (.afterLanguage n) val (sc :: []) = _
      rw [parseLoop_step_script tag n hn0 val sc [] hls has]
      simp [parseLoop, WfTag.scrVal, WfTag.regVal, hs, hr, SCRIPT_SHIFT]
    | some r =>
      obtain ⟨hchk, hext, hvar, hreg, henc⟩ := region_step_facts h hr
      show parseLoop tag (.afterLanguage n) val (sc :: r :: []) = _
      rw [parseLoop_step_script tag n hn0 val sc (r :: []) hls has]
      rw [parseLoop_step_region_script tag _ r [] hchk hext hvar hreg henc]
      simp [parseLoop, WfTag.scrVal, WfTag.regVal, hs, hr, SCRIPT_SHIFT]

theorem parseLoop_after_language (tag : Str) {T : WfTag} (h : wfTag T = true)
    (val : Nat) (hv : val &&& EXTLANG_MASK = 0) :
    parseLoop tag (.afterLanguage 0) val
        (T.ext.toList ++ (if T.pro then ["pro".toList] else []) ++
          T.script.toList ++ T.region.toList) =
      some (Except.ok ((((val ||| (T.extVal <<< 32)) ||| (T.proVal <<< 47)) |||
        (T.scrVal <<< 11)) ||| T.regVal)) := by
  have hPM : PROTO_MASK = 1 <<< 47 := by decide
  cases he : T.ext with
  | none =>
    by_cases hp : T.pro
    · rw [if_pos hp]
      show parseLoop tag (.afterLanguage 0) val
        ("pro".toList :: (T.script.toList ++ T.region.toList)) = _
      rw [parseLoop_step_pro tag 0 (by norm_num) (by norm_num) val _]
      rw [parseLoop_script_region tag h (0 + 1) (by norm_num) _]
      simp [WfTag.extVal, WfTag.proVal, he, hp, hPM]
    · rw [if_neg hp]
      show parseLoop tag (.afterLanguage 0) val
        (T.script.toList ++ T.region.toList) = _
      rw [parseLoop_script_region tag h 0 (by norm_num) val]
      simp [WfTag.extVal, WfTag.proVal, he, hp]
  | some e =>
    obtain ⟨hle, hae, hpe⟩ := wfTag_ext h e he
    by_cases hp : T.pro
    · rw [if_pos hp]
      show parseLoop tag (.afterLanguage 0) val
        (e :: ("pro".toList :: (T.script.toList ++ T.region.toList))) = _
      rw [parseLoop_step_ext tag 0 (by norm_num) (by norm_num) val e _ hle hae hpe hv]
      rw [parseLoop_step_pro tag (0 + 1) (by norm_num) (by norm_num) _ _]
      rw [parseLoop_script_region tag h (0 + 1 + 1) (by norm_num) _]
      simp [WfTag.extVal, WfTag.proVal, he, hp, hPM, EXTLANG_SHIFT]
    · rw [if_neg hp]
      show parseLoop tag (.afterLanguage 0) val
        (e :: (T.script.toList ++ T.region.toList)) = _
      rw [parseLoop_step_ext tag 0 (by norm_num) (by norm_num) val e _ hle hae hpe hv]
      rw [parseLoop_script_region tag h (0 + 1) (by norm_num) _]
      simp [WfTag.extVal, WfTag.proVal, he, hp, EXTLANG_SHIFT]

theorem parse_render {T : WfTag} (h : wfTag T = true) :
    parse_lowercase_tag T.render = some (Except.ok T.code) := by
  unfold parse_lowercase_tag
  rw [split_render h]
  have htok : T.tokens = T.lang ::
      (T.ext.toList ++ (if T.pro then ["pro".toList] else []) ++
        T.script.toList ++ T.region.toList) := by
    unfold WfTag.tokens
    simp
  rw [htok]
  simp only [parseParts]
  by_cases hu : T.lang = "und".toList
  · have hix : ¬ (T.lang = ['i'] ∨ T.lang = ['x']) := by
      rw [hu]
      decide
    rw [if_neg hix, if_pos hu]
    rw [parseLoop_after_language T.render h 0 (by decide)]
    simp [WfTag.code, WfTag.langVal, hu]
  · rcases wfTag_lang h with h1 | h1
    · exact absurd h1 hu
    · have hix : ¬ (T.lang = ['i'] ∨ T.lang = ['x']) := by
        rintro (he | he) <;> rw [he] at h1 <;> simp at h1
      have hne : T.lang ≠ [] := by intro he; rw [he] at h1; simp at h1
      have hchk : check_characters T.lang = true := check_characters_of_lower h1.2.2
      have henc : encode_subtag T.lang 3 = some (encVal T.lang 3) :=
        (@encVal_alpha T.lang 3 h1.2.2 hne (by omega) (by norm_num)).1
      have hbound : encVal T.lang 3 < 2 ^ 15 := by
        have := (@encVal_alpha T.lang 3 h1.2.2 hne (by omega) (by norm_num)).2.2.2
        calc encVal T.lang 3 < 27 * 32 ^ (3 - 1) + 1000 := this
          _ < 2 ^ 15 := by norm_num
      have hsh : encVal T.lang 3 <<< 48 < 2 ^ 64 := by
        have := @shiftLeft_lt (encVal T.lang 3) 15 48 hbound
        calc encVal T.lang 3 <<< 48 < 2 ^ (15 + 48) := this
          _ < 2 ^ 64 := by norm_num
      have hv : (encVal T.lang 3 <<< 48) &&& EXTLANG_MASK = 0 := by
        rw [show EXTLANG_MASK = bitRange 32 15 from by decide]
        exact and_bitRange_drop 48 32 15 hbound (Or.inr (by norm_num))
      rw [if_neg hix, if_neg hu, if_pos hchk, henc]
      show parseLoop T.render (ParserState.afterLanguage 0)
        ((encVal T.lang 3 <<< LANGUAGE_SHIFT) % 2 ^ 64) _ = _
      have hmod : (encVal T.lang 3 <<< LANGUAGE_SHIFT) % 2 ^ 64 =
          encVal T.lang 3 <<< 48 := by
        simp only [LANGUAGE_SHIFT]
        exact Nat.mod_eq_of_lt hsh
      rw [hmod]
      rw [parseLoop_after_language T.render h _ hv]
      have hu' : ¬ T.lang = ['u', 'n', 'd'] := hu
      simp [WfTag.code, WfTag.langVal, hu']

/-! ## Claim C2 -/

/-- C2 counterexample: `und-000` is a well-formed tag made only of a language
and a (numeric) region subtag, but the code stores the region `000` as the
field value 0, which means "absent": parsing yields the empty code and
unparsing prints `und`, not the canonical form `und-000`. -/
theorem C2_round_trip_fails_on_und000 :
    parse_tag "und-000".toList = some (Except.ok 0) ∧
    unparse_tag 0 = some "und".toList ∧
    "und".toList ≠ "und-000".toList := by
  decide

/-- C2 (amended): for every string `s` that normalizes (underscores to
hyphens, lowercased) to a well-formed tag made of a language, at most one
non-`pro` extlang, an optional `pro` extlang, an optional script and an
optional region other than numeric `000`, parsing `s` yields the packed
code of the tag and unparsing that code prints the tag's canonical form
(language lowercase, script title-case, region uppercase). -/
theorem C2_round_trip (T : WfTag) (s : Str) (hwf : wfTag T = true)
    (hs : normalize_tag s = T.render) :
    parse_tag s = some (Except.ok T.code) ∧ unparse_tag T.code = some T.canonical := by
  constructor
  · unfold parse_tag
    rw [hs]
    exact parse_render hwf
  · exact unparse_code hwf

/-- Witness for C2 at the mixed-case input `zh-Hant-TW`. -/
theorem C2_round_trip_witness :
    parse_tag "zh-Hant-TW".toList =
      some (Except.ok (WfTag.code ⟨"zh".toList, none, false, some "hant".toList,
        some "tw".toList⟩)) ∧
    unparse_tag (WfTag.code ⟨"zh".toList, none, false, some "hant".toList,
        some "tw".toList⟩) =
      some (WfTag.canonical ⟨"zh".toList, none, false, some "hant".toList,
        some "tw".toList⟩) :=
  C2_round_trip ⟨"zh".toList, none, false, some "hant".toList, some "tw".toList⟩
    "zh-Hant-TW".toList (by decide) (by decide)
